import Mathlib

/-!
Verification of the field evaluation engine
(`src/source/blender/functions/intern/field.cc`).

The engine turns an acyclic graph of per-element computations (fields) into a
procedure (an instruction list over variables), deduplicating shared
sub-expressions by field-source identity, and evaluates the requested fields
over an index mask into caller-owned buffers.

The shallow embedding below mirrors the source file function by function.
Collaborators that are only declared in headers absent from the repository
snapshot (the procedure builder primitives, the procedure executor and the
structural validation pass) are modelled from the specification; their doc
comments say so explicitly.
-/

namespace FieldEval

/-- Identity of a `FieldSource` (the variable map in field.cc line 28 is keyed
on `const FieldSource *`): either a `FieldInput` or a `FieldOperation`,
identified by a numeric id. -/
inductive SourceId where
  | input : Nat → SourceId
  | operation : Nat → SourceId
deriving DecidableEq

/-- A `GField`: a reference to a field source plus the index of the source
output this field denotes (`field.source_output_index()`). -/
structure GField where
  source : SourceId
  outIndex : Nat
deriving DecidableEq

/-- `field.is_input()`. -/
def GField.isInput (f : GField) : Bool :=
  match f.source with
  | .input _ => true
  | .operation _ => false

/-- The element-wise multi-function descriptor held by a `FieldOperation`:
its declared output arity and its per-element function (inputs to outputs). -/
structure MultiFn where
  numOutputs : Nat
  fn : List Int → List Int

/-- A concrete field graph: the data and names of the `FieldInput`s and the
input fields and multi-functions of the `FieldOperation`s that `GField`s
reference.  `inputData i e` is the per-element view produced by input `i`
(`FieldInput::get_varray_generic_context`). -/
structure FieldContext where
  numInputs : Nat
  numOps : Nat
  inputName : Nat → String
  inputData : Nat → Nat → Int
  opInputs : Nat → List GField
  opFn : Nat → MultiFn

/-- Validity of a source reference within a context. -/
def SourceId.validIn (ctx : FieldContext) : SourceId → Prop
  | .input i => i < ctx.numInputs
  | .operation j => j < ctx.numOps

instance (ctx : FieldContext) (s : SourceId) : Decidable (s.validIn ctx) :=
  match s with
  | .input i => inferInstanceAs (Decidable (i < ctx.numInputs))
  | .operation j => inferInstanceAs (Decidable (j < ctx.numOps))

/-- Validity of a field: its source exists and its output index is within the
source's output arity (inputs expose a single output, index 0). -/
def GField.valid (ctx : FieldContext) (f : GField) : Prop :=
  match f.source with
  | .input i => i < ctx.numInputs ∧ f.outIndex = 0
  | .operation j => j < ctx.numOps ∧ f.outIndex < (ctx.opFn j).numOutputs

instance (ctx : FieldContext) (f : GField) : Decidable (f.valid ctx) :=
  match f with
  | ⟨.input i, k⟩ => inferInstanceAs (Decidable (i < ctx.numInputs ∧ k = 0))
  | ⟨.operation j, k⟩ =>
      inferInstanceAs (Decidable (j < ctx.numOps ∧ k < (ctx.opFn j).numOutputs))

/-- `s.below j`: if `s` is an operation, its id is smaller than `j`. -/
def SourceId.below (s : SourceId) (j : Nat) : Prop :=
  match s with
  | .input _ => True
  | .operation k => k < j

instance (s : SourceId) (j : Nat) : Decidable (s.below j) :=
  match s with
  | .input _ => inferInstanceAs (Decidable True)
  | .operation k => inferInstanceAs (Decidable (k < j))

/-- Well-formedness of a field graph: every field feeding an operation is
valid and references only strictly earlier operations.  This is the
"finite acyclic graph" guarantee of the specification, made structural. -/
def FieldContext.WF (ctx : FieldContext) : Prop :=
  ∀ j, j < ctx.numOps → ∀ f ∈ ctx.opInputs j, f.valid ctx ∧ f.source.below j

instance (ctx : FieldContext) : Decidable ctx.WF :=
  inferInstanceAs (Decidable (∀ j, j < ctx.numOps → ∀ f ∈ ctx.opInputs j,
    f.valid ctx ∧ f.source.below j))

/-- Element-wise value semantics of the graph: the list of output values of
operation `j` at element `e`.  The guard `k < j` always holds in well-formed
contexts. -/
def evalOp (ctx : FieldContext) (e : Nat) (j : Nat) : List Int :=
  (ctx.opFn j).fn <| (ctx.opInputs j).map fun f =>
    match f.source with
    | .input i => ctx.inputData i e
    | .operation k => if _h : k < j then (evalOp ctx e k).getD f.outIndex 0 else 0
termination_by j

/-- The value of a field at element `e`. -/
def evalField (ctx : FieldContext) (e : Nat) (f : GField) : Int :=
  match f.source with
  | .input i => ctx.inputData i e
  | .operation j => (evalOp ctx e j).getD f.outIndex 0

/-- The set of sources reachable from operation `j`, itself included. -/
def reachOp (ctx : FieldContext) (j : Nat) : Finset SourceId :=
  insert (SourceId.operation j) <| (ctx.opInputs j).foldr (fun f acc =>
    (match f.source with
     | .input i => {SourceId.input i}
     | .operation k => if _h : k < j then reachOp ctx k else {SourceId.operation k}) ∪ acc) ∅
termination_by j

/-- The set of sources reachable from a source, itself included. -/
def reachSrc (ctx : FieldContext) : SourceId → Finset SourceId
  | .input i => {SourceId.input i}
  | .operation j => reachOp ctx j

/-- The set of sources reachable from a list of requested fields. -/
def reachFields (ctx : FieldContext) (fields : List GField) : Finset SourceId :=
  fields.foldr (fun f acc => reachSrc ctx f.source ∪ acc) ∅

/-! ## Procedures and the builder

The `MFProcedure` / `MFProcedureBuilder` pair lives outside the repository
snapshot; the builder primitives below are modelled from the specification:
a procedure is an ordered instruction list over numbered variables, with
input-parameter declarations (fresh variable each), call instructions
(fresh output variables sized to the multi-function's output arity),
destruct instructions, a return, and output-parameter declarations that
reference existing variables. -/

/-- A procedure instruction.  A call records the operation id whose
multi-function it invokes, its input variables and its output variables. -/
inductive Instruction where
  | call (op : Nat) (ins : List Nat) (outs : List Nat)
  | destruct (v : Nat)
  | ret
deriving DecidableEq

/-- Modelled from the spec: the procedure being built — a variable counter,
the input parameters (variable and debug name, in declaration order), the
output parameters (in declaration order) and the instruction body. -/
structure Procedure where
  nextVar : Nat
  inputParams : List (Nat × String)
  outputParams : List Nat
  body : List Instruction
deriving DecidableEq

def Procedure.empty : Procedure := ⟨0, [], [], []⟩

/-- Modelled from the spec: `MFProcedureBuilder::add_input_parameter` —
declares a fresh variable as an input parameter, returning it. -/
def addInputParameter (p : Procedure) (name : String) : Procedure × Nat :=
  (⟨p.nextVar + 1, p.inputParams ++ [(p.nextVar, name)], p.outputParams, p.body⟩, p.nextVar)

/-- Modelled from the spec: `MFProcedureBuilder::add_call` — appends a call
instruction with fresh output variables sized to the output arity. -/
def addCall (p : Procedure) (op : Nat) (numOuts : Nat) (ins : List Nat) :
    Procedure × List Nat :=
  let outs := (List.range numOuts).map fun l => p.nextVar + l
  (⟨p.nextVar + numOuts, p.inputParams, p.outputParams,
    p.body ++ [Instruction.call op ins outs]⟩, outs)

/-- Modelled from the spec: `MFProcedureBuilder::add_destruct`. -/
def addDestruct (p : Procedure) (v : Nat) : Procedure :=
  ⟨p.nextVar, p.inputParams, p.outputParams, p.body ++ [Instruction.destruct v]⟩

/-- Modelled from the spec: `MFProcedureBuilder::add_return`. -/
def addReturn (p : Procedure) : Procedure :=
  ⟨p.nextVar, p.inputParams, p.outputParams, p.body ++ [Instruction.ret]⟩

/-- Modelled from the spec: `MFProcedureBuilder::add_output_parameter` —
declares an existing variable as an output parameter. -/
def addOutputParameter (p : Procedure) (v : Nat) : Procedure :=
  ⟨p.nextVar, p.inputParams, p.outputParams ++ [v], p.body⟩

/-- The unique-variable map (field.cc line 28): field-source identity to the
ordered list of variables it produced, kept in insertion order. -/
abbrev VariableMap := List (SourceId × List Nat)

/-- Map lookup by source identity. -/
def lookupSrc : VariableMap → SourceId → Option (List Nat)
  | [], _ => none
  | (s, vs) :: rest, t => if s = t then some vs else lookupSrc rest t

/-- `Map::lookup_or_add(key, {})` followed by appending `vs` to the stored
vector (field.cc lines 101–104). -/
def appendVars : VariableMap → SourceId → List Nat → VariableMap
  | [], t, vs => [(t, vs)]
  | (s, ws) :: rest, t, vs =>
      if s = t then (s, ws ++ vs) :: rest else (s, ws) :: appendVars rest t vs

/-- `get_field_variable` (field.cc lines 36–45): for an input field the single
recorded variable, for an operation field the recorded variable at the field's
source output index. -/
def getFieldVariable (m : VariableMap) (f : GField) : Nat :=
  match f.source with
  | .input _ => ((lookupSrc m f.source).getD []).headD 0
  | .operation _ => ((lookupSrc m f.source).getD []).getD f.outIndex 0

/-- The state threaded through the procedure-building worklist: the procedure
under construction, the unique-variable map, and the `fields_to_visit` stack
(head is the top). -/
structure BuildState where
  proc : Procedure
  vmap : VariableMap
  stack : List GField
deriving DecidableEq

/-- The first input field of an operation whose source has no map entry yet
(the scan in field.cc lines 80–88). -/
def firstMissing (m : VariableMap) : List GField → Option GField
  | [] => none
  | f :: rest => if (lookupSrc m f.source).isSome then firstMissing m rest else some f

/-- `add_variables_for_input` (field.cc lines 62–72): pop the stack, declare a
fresh input-parameter variable named after the input, record the single-entry
mapping. -/
def addVariablesForInput (ctx : FieldContext) (f : GField) (st : BuildState) :
    BuildState :=
  match f.source with
  | .input i =>
      let pr := addInputParameter st.proc (ctx.inputName i)
      ⟨pr.1, st.vmap ++ [(SourceId.input i, [pr.2])], st.stack.tail⟩
  | .operation _ => ⟨st.proc, st.vmap, st.stack.tail⟩

/-- `add_variables_for_operation` (field.cc lines 74–105): if some input field
of the operation has no map entry yet, push the first such field and leave the
operation on the stack; otherwise pop the operation, resolve each input field
to its variable, emit a call with fresh outputs and record them.
(The `unique_inputs` set built in lines 93–97 is never read and is omitted.) -/
def addVariablesForOperation (ctx : FieldContext) (f : GField) (st : BuildState) :
    BuildState :=
  match f.source with
  | .operation j =>
      (match firstMissing st.vmap (ctx.opInputs j) with
       | some d => ⟨st.proc, st.vmap, d :: st.stack⟩
       | none =>
          let ins := (ctx.opInputs j).map (getFieldVariable st.vmap)
          let pr := addCall st.proc j (ctx.opFn j).numOutputs ins
          ⟨pr.1, appendVars st.vmap (SourceId.operation j) pr.2, st.stack.tail⟩)
  | .input _ => ⟨st.proc, st.vmap, st.stack.tail⟩

/-- One iteration of the worklist loop body of `add_unique_variables`
(field.cc lines 116–128): peek the top field; if its source is already mapped
pop it, otherwise dispatch on input/operation. -/
def buildStep (ctx : FieldContext) (st : BuildState) : BuildState :=
  match st.stack with
  | [] => st
  | f :: rest =>
      if (lookupSrc st.vmap f.source).isSome then ⟨st.proc, st.vmap, rest⟩
      else if f.isInput then addVariablesForInput ctx f st
      else addVariablesForOperation ctx f st

/-- The worklist loop of `add_unique_variables` (field.cc lines 116–129),
with explicit fuel; `none` means the fuel ran out before the stack emptied. -/
def buildLoop (ctx : FieldContext) (fuel : Nat) (st : BuildState) :
    Option BuildState :=
  match st.stack with
  | [] => some st
  | _ :: _ =>
      match fuel with
      | 0 => none
      | fuel' + 1 => buildLoop ctx fuel' (buildStep ctx st)

/-- The initial worklist state of `add_unique_variables` (field.cc lines
111–114): pushing the requested fields in order leaves the last one on top. -/
def initState (fields : List GField) : BuildState :=
  ⟨Procedure.empty, [], fields.reverse⟩

/-- `add_destructs` (field.cc lines 138–158): resolve each requested field to
its variable (the outputs set), then destruct every other variable recorded in
the map. -/
def addDestructs (fields : List GField) (proc : Procedure) (vmap : VariableMap) :
    Procedure :=
  let outputs := fields.map (getFieldVariable vmap)
  (vmap.flatMap Prod.snd).foldl
    (fun p v => if v ∈ outputs then p else addDestruct p v) proc

/-- `build_procedure` (field.cc lines 160–180): run the worklist, add the
destructs, the return, and one output parameter per requested field. -/
def buildProcedure (ctx : FieldContext) (fuel : Nat) (fields : List GField) :
    Option (Procedure × VariableMap) :=
  match buildLoop ctx fuel (initState fields) with
  | none => none
  | some st =>
      let p1 := addDestructs fields st.proc st.vmap
      let p2 := addReturn p1
      let p3 := fields.foldl (fun p f => addOutputParameter p (getFieldVariable st.vmap f)) p2
      some (p3, st.vmap)

/-- The variables available to a call: parameters and outputs of earlier
calls.  Helper for `Procedure.validate`. -/
def callOutputs : List Instruction → List Nat
  | [] => []
  | .call _ _ outs :: rest => outs ++ callOutputs rest
  | .destruct _ :: rest => callOutputs rest
  | .ret :: rest => callOutputs rest

/-- Modelled from the spec: the structural validation walk of
`MFProcedure::validate` — every variable referenced by a call was produced by
a strictly earlier instruction or is a parameter. -/
def validateBody (avail : List Nat) : List Instruction → Bool
  | [] => true
  | .call _ ins outs :: rest =>
      ins.all (fun v => decide (v ∈ avail)) && validateBody (avail ++ outs) rest
  | .destruct _ :: rest => validateBody avail rest
  | .ret :: rest => validateBody avail rest

/-- Modelled from the spec: `MFProcedure::validate` (asserted at field.cc
line 179). -/
def Procedure.validate (p : Procedure) : Bool :=
  validateBody (p.inputParams.map Prod.fst) p.body

/-! ## Evaluation-time input gathering and the executor -/

/-- A caller-owned output buffer, one value per element. -/
abbrev Buffer := Nat → Int

/-- An index mask: the subset of elements targeted by one evaluation call. -/
abbrev Mask := List Nat

/-- The state threaded through `gather_inputs`: the set of variables whose
input data is already bound (`computed_inputs`), the positional list of data
bindings appended to the params builder, the traversal stack, and — as pure
instrumentation for counting — the log of `get_varray_generic_context`
invocations (one input id per invocation, in order). -/
structure GatherState where
  computed : List Nat
  binds : List (Nat → Int)
  log : List Nat
  stack : List GField

/-- One iteration of the loop body of `gather_inputs` (field.cc lines
198–216): pop the top field; an input is bound on first encounter of its
variable; an operation pushes its input fields (in order, so they are popped
in reverse). -/
def gatherStep (ctx : FieldContext) (vmap : VariableMap) (st : GatherState) :
    GatherState :=
  match st.stack with
  | [] => st
  | f :: rest =>
      match f.source with
      | .input i =>
          let v := getFieldVariable vmap f
          if v ∈ st.computed then ⟨st.computed, st.binds, st.log, rest⟩
          else
            ⟨v :: st.computed, st.binds ++ [fun e => ctx.inputData i e],
              st.log ++ [i], rest⟩
      | .operation j => ⟨st.computed, st.binds, st.log, (ctx.opInputs j).reverse ++ rest⟩

/-- The worklist loop of `gather_inputs` (field.cc lines 186–217), with
explicit fuel. -/
def gatherLoop (ctx : FieldContext) (vmap : VariableMap) (fuel : Nat)
    (st : GatherState) : Option GatherState :=
  match st.stack with
  | [] => some st
  | _ :: _ =>
      match fuel with
      | 0 => none
      | fuel' + 1 => gatherLoop ctx vmap fuel' (gatherStep ctx vmap st)

/-- `gather_inputs` seeded with the requested fields (field.cc lines
193–196). -/
def gatherInputs (ctx : FieldContext) (vmap : VariableMap) (fuel : Nat)
    (fields : List GField) : Option GatherState :=
  gatherLoop ctx vmap fuel ⟨[], [], [], fields.reverse⟩

/-- First position of `v` in a variable list. -/
def posOf : List Nat → Nat → Option Nat
  | [], _ => none
  | x :: rest, v => if x = v then some 0 else (posOf rest v).map (· + 1)

/-- Modelled from the spec: the executor's interpretation of the instruction
body.  `env` assigns each variable its per-element values; a call applies the
operation's multi-function element-wise; destructs release resources and do
not change values; `ret` stops execution. -/
def execBody (ctx : FieldContext) (env : Nat → Nat → Int) :
    List Instruction → (Nat → Nat → Int)
  | [] => env
  | .call j ins outs :: rest =>
      let env' : Nat → Nat → Int := fun v e =>
        match posOf outs v with
        | some l => ((ctx.opFn j).fn (ins.map fun w => env w e)).getD l 0
        | none => env v e
      execBody ctx env' rest
  | .destruct _ :: rest => execBody ctx env rest
  | .ret :: _ => env

/-- Modelled from the spec: `MFProcedureExecutor::call` with
`MFParamsBuilder` bindings.  Bindings are positional: the k-th readonly input
binding feeds the k-th declared input parameter (the builder's
`add_readonly_single_input` takes only data and a debug name), and the k-th
output buffer receives the k-th output parameter's values at exactly the
masked elements, other elements untouched. -/
def executorCall (ctx : FieldContext) (proc : Procedure) (mask : Mask)
    (binds : List (Nat → Int)) (outBufs : List Buffer) : List Buffer :=
  let pvars := proc.inputParams.map Prod.fst
  let env0 : Nat → Nat → Int := fun v e =>
    match posOf pvars v with
    | some k => (binds.getD k fun _ => 0) e
    | none => 0
  let envF := execBody ctx env0 proc.body
  (proc.outputParams.zip outBufs).map fun pb =>
    fun e => if e ∈ mask then envF pb.1 e else pb.2 e

/-- `evaluate_non_input_fields` (field.cc lines 226–244): build the procedure,
gather the input bindings, run the executor over the mask.  Returns the
written buffers (parallel to the requested fields) and the instrumentation
log of input-data invocations. -/
def evaluateNonInputFields (ctx : FieldContext) (fuel : Nat)
    (fields : List GField) (mask : Mask) (outputs : List Buffer) :
    Option (List Buffer × List Nat) :=
  match buildProcedure ctx fuel fields with
  | none => none
  | some (proc, vmap) =>
      match gatherInputs ctx vmap fuel fields with
      | none => none
      | some g => some (executorCall ctx proc mask g.binds outputs, g.log)

/-- `Vector::remove_and_reorder(i)`: replace element `i` with the last
element and pop the last element. -/
def removeAndReorder {α : Type} (l : List α) (i : Nat) : List α :=
  match l.getLast? with
  | none => l
  | some last => (l.set i last).dropLast

/-- The splitting loop of `evaluate_fields` (field.cc lines 260–271), with
the countdown index made explicit: `i+1` means position `i` is examined next.
A bare input field is materialized directly into the caller's buffer at its
original position (only masked elements written) and removed, together with
its buffer, by `remove_and_reorder`; the buffers are the master list indexed
by original position, and `nio` holds, for each surviving field, the original
position of its buffer.  The log records input-data invocations. -/
def splitLoop (ctx : FieldContext) (mask : Mask) :
    Nat → List GField → List Nat → List Buffer → List Nat →
    List GField × List Nat × List Buffer × List Nat
  | 0, nif, nio, bufs, log => (nif, nio, bufs, log)
  | i + 1, nif, nio, bufs, log =>
      match (nif.getD i ⟨SourceId.operation 0, 0⟩).source with
      | .input k =>
          let old := bufs.getD i fun _ => 0
          let bufs' := bufs.set i fun e => if e ∈ mask then ctx.inputData k e else old e
          splitLoop ctx mask i (removeAndReorder nif i) (removeAndReorder nio i)
            bufs' (log ++ [k])
      | .operation _ => splitLoop ctx mask i nif nio bufs log

/-- Write the buffers the executor produced for the surviving fields back to
their original positions (the spans alias the caller's buffers). -/
def scatter (bufs : List Buffer) (nio : List Nat) (written : List Buffer) :
    List Buffer :=
  (nio.zip written).foldl (fun b pw => b.set pw.1 pw.2) bufs

/-- The result of `evaluate_fields`: the contract check failed, the model ran
out of fuel, or success with the final buffers (parallel to the request), the
log of input-data invocations, and the list of fields that entered procedure
construction (`none` when no procedure was built). -/
inductive EvalResult where
  | lengthMismatch
  | outOfFuel
  | ok (bufs : List Buffer) (log : List Nat) (built : Option (List GField))

/-- `evaluate_fields` (field.cc lines 250–276): the `BLI_assert` contract
check on lengths, direct materialization of bare input fields, then one
batched procedure evaluation of the remaining fields. -/
def evaluateFields (ctx : FieldContext) (fuel : Nat) (fields : List GField)
    (mask : Mask) (outputs : List Buffer) : EvalResult :=
  if fields.length = outputs.length then
    match splitLoop ctx mask fields.length fields (List.range fields.length) outputs [] with
    | (nif, nio, bufs, log) =>
        if nif.isEmpty then .ok bufs log none
        else
          match evaluateNonInputFields ctx fuel nif mask
              (nio.map fun p => bufs.getD p fun _ => 0) with
          | none => .outOfFuel
          | some (written, glog) => .ok (scatter bufs nio written) (log ++ glog) (some nif)
  else .lengthMismatch

/-- `evaluate_constant_field` (field.cc lines 281–285): a one-element span
over the caller's storage, mask `IndexRange(1) = {0}`, singleton field
list. -/
def evaluateConstantField (ctx : FieldContext) (fuel : Nat) (f : GField)
    (store : Buffer) : EvalResult :=
  evaluateFields ctx fuel [f] [0] [store]

/-- Projection used to state claims about the log of an evaluation. -/
def EvalResult.logOf : EvalResult → Option (List Nat)
  | .ok _ log _ => some log
  | _ => none

/-- Projection: the value the evaluation left in buffer `p` at element `e`. -/
def EvalResult.valueAt (r : EvalResult) (p e : Nat) : Option Int :=
  match r with
  | .ok bufs _ _ => some ((bufs.getD p fun _ => 0) e)
  | _ => none

/-- Projection: the fields that entered procedure construction. -/
def EvalResult.builtOf : EvalResult → Option (Option (List GField))
  | .ok _ _ built => some built
  | _ => none

/-! ## Derived definitions used by the statements and proofs -/

/-- The operation ids of the call instructions of a body, in order. -/
def callOps : List Instruction → List Nat
  | [] => []
  | .call j _ _ :: rest => j :: callOps rest
  | .destruct _ :: rest => callOps rest
  | .ret :: rest => callOps rest

/-- The variables a procedure has produced: parameters and call outputs. -/
def producedVars (p : Procedure) : List Nat :=
  p.inputParams.map Prod.fst ++ callOutputs p.body

/-- The input-keyed entries of the map, as (variable, name) pairs in
insertion order: these mirror the input-parameter declarations. -/
def inputEntries (ctx : FieldContext) (m : VariableMap) : List (Nat × String) :=
  m.filterMap fun p =>
    match p.1 with
    | .input i => some (p.2.headD 0, ctx.inputName i)
    | .operation _ => none

/-- The invariant maintained by every iteration of the worklist loop of
`add_unique_variables`, relative to the requested fields `F0`. -/
structure Inv (ctx : FieldContext) (F0 : List GField) (st : BuildState) : Prop where
  keysNodup : (st.vmap.map Prod.fst).Nodup
  keysValid : ∀ p ∈ st.vmap, SourceId.validIn ctx p.1
  flatNodup : (st.vmap.flatMap Prod.snd).Nodup
  producedNodup : (producedVars st.proc).Nodup
  producedLt : ∀ v ∈ producedVars st.proc, v < st.proc.nextVar
  outParamsNil : st.proc.outputParams = []
  inputEntriesEq : st.proc.inputParams = inputEntries ctx st.vmap
  inputEntry : ∀ i vs, lookupSrc st.vmap (SourceId.input i) = some vs →
    ∃ v, vs = [v]
  opEntry : ∀ j vs, lookupSrc st.vmap (SourceId.operation j) = some vs →
    (∀ f ∈ ctx.opInputs j, (lookupSrc st.vmap f.source).isSome = true) ∧
    Instruction.call j ((ctx.opInputs j).map (getFieldVariable st.vmap)) vs ∈ st.proc.body
  callInv : ∀ j ins outs, Instruction.call j ins outs ∈ st.proc.body →
    j < ctx.numOps ∧ outs.length = (ctx.opFn j).numOutputs ∧
    lookupSrc st.vmap (SourceId.operation j) = some outs ∧
    ins = (ctx.opInputs j).map (getFieldVariable st.vmap)
  bodyCalls : ∀ instr ∈ st.proc.body, ∃ j ins outs, instr = Instruction.call j ins outs
  callOpsNodup : (callOps st.proc.body).Nodup
  validBody : validateBody (st.proc.inputParams.map Prod.fst) st.proc.body = true
  valsProduced : ∀ v ∈ st.vmap.flatMap Prod.snd, v ∈ producedVars st.proc
  stackValid : ∀ f ∈ st.stack, f.valid ctx
  stackReach : ∀ f ∈ st.stack, f.source ∈ reachFields ctx F0
  keysReach : ∀ p ∈ st.vmap, p.1 ∈ reachFields ctx F0
  coverage : ∀ s ∈ reachFields ctx F0, s ∈ st.vmap.map Prod.fst ∨
    ∃ f ∈ st.stack, s ∈ reachSrc ctx f.source
  mapClosed : ∀ p ∈ st.vmap, ∀ s ∈ reachSrc ctx p.1, s ∈ st.vmap.map Prod.fst

def validSources (ctx : FieldContext) : Finset SourceId :=
  ((Finset.range ctx.numInputs).image SourceId.input) ∪
    ((Finset.range ctx.numOps).image SourceId.operation)

/-- The rank of a source: inputs are leaves; an operation's rank bounds the
ranks of everything it depends on (by well-formedness). -/
def rankS : SourceId → Nat
  | .input _ => 0
  | .operation j => j + 1

/-- The weight of the top of the worklist stack: maximal when the top is
already mapped (it will simply be popped), otherwise governed by the rank of
its source (a blocked operation only ever pushes strictly smaller ranks). -/
def topWeight (ctx : FieldContext) (st : BuildState) : Nat :=
  match st.stack with
  | [] => 0
  | f :: _ =>
      if (lookupSrc st.vmap f.source).isSome then ctx.numOps + 2
      else rankS f.source + 1

/-- The decreasing measure of the worklist loop. -/
def buildMeasure (ctx : FieldContext) (st : BuildState) : Nat :=
  2 * (((ctx.numInputs + ctx.numOps) - (st.vmap.map Prod.fst).length) *
        (ctx.numOps + 3) + topWeight ctx st) + st.stack.length

/-- A source predicate as a boolean, for counting. -/
def isInputS : SourceId → Bool
  | .input _ => true
  | .operation _ => false

/-! ## Concrete example graphs used to instantiate the theorems -/

/-- One input `A` (data `e + 1`, i.e. `[1,2,3,…]`) and two operations
`double` (operation 0) and `square` (operation 1), both reading `A`. -/
def ctxPair : FieldContext where
  numInputs := 1
  numOps := 2
  inputName := fun _ => "A"
  inputData := fun _ e => (e : Int) + 1
  opInputs := fun _ => [⟨SourceId.input 0, 0⟩]
  opFn := fun j =>
    if j = 0 then ⟨1, fun l => [2 * l.getD 0 0]⟩
    else ⟨1, fun l => [l.getD 0 0 * l.getD 0 0]⟩

def fieldsPair : List GField :=
  [⟨SourceId.operation 0, 0⟩, ⟨SourceId.operation 1, 0⟩]

/-- A two-input operation: `sub` (operation 0) reads `A` (value 1) and `B`
(value 0), computing `A - B`. -/
def ctxSub : FieldContext where
  numInputs := 2
  numOps := 1
  inputName := fun i => if i = 0 then "A" else "B"
  inputData := fun i _ => if i = 0 then 1 else 0
  opInputs := fun _ => [⟨SourceId.input 0, 0⟩, ⟨SourceId.input 1, 0⟩]
  opFn := fun _ => ⟨1, fun l => [l.getD 0 0 - l.getD 1 0]⟩

def fldSub : GField := ⟨SourceId.operation 0, 0⟩

/-- One input `A` and one operation `double(A)`; requesting the bare input
together with the operation exercises both evaluation phases. -/
def ctxDup : FieldContext where
  numInputs := 1
  numOps := 1
  inputName := fun _ => "A"
  inputData := fun _ e => (e : Int) + 1
  opInputs := fun _ => [⟨SourceId.input 0, 0⟩]
  opFn := fun _ => ⟨1, fun l => [2 * l.getD 0 0]⟩

def fieldsDup : List GField :=
  [⟨SourceId.input 0, 0⟩, ⟨SourceId.operation 0, 0⟩]

/-- The final state of the worklist loop on the `ctxPair` example. -/
def stPair : BuildState :=
  (buildLoop ctxPair 32 (initState fieldsPair)).getD ⟨Procedure.empty, [], []⟩

/-- The built procedure and map on the `ctxPair` example. -/
def builtPair : Procedure × VariableMap :=
  (buildProcedure ctxPair 32 fieldsPair).getD (Procedure.empty, [])

/-- The gather result on the duplicated-input request, over an empty map. -/
def gatherDup : GatherState :=
  (gatherInputs ctxDup [] 16 [⟨SourceId.input 0, 0⟩, ⟨SourceId.input 0, 0⟩]).getD
    ⟨[], [], [], []⟩

/-- An all-zero caller buffer. -/
def zeroBuf : Buffer := fun _ => 0

/-! ## Lemmas about the variable map -/

theorem lookupSrc_append_left {m l : VariableMap} {s : SourceId} {vs : List Nat}
    (h : lookupSrc m s = some vs) : lookupSrc (m ++ l) s = some vs := by
  induction m with
  | nil => simp [lookupSrc] at h
  | cons p rest ih =>
      rw [lookupSrc] at h
      rw [List.cons_append, lookupSrc]
      by_cases hp : p.1 = s
      · simpa [hp] using h
      · rw [if_neg hp] at h ⊢
        exact ih h

theorem lookupSrc_append_right {m l : VariableMap} {s : SourceId}
    (h : lookupSrc m s = none) : lookupSrc (m ++ l) s = lookupSrc l s := by
  induction m with
  | nil => simp
  | cons p rest ih =>
      rw [lookupSrc] at h
      rw [List.cons_append, lookupSrc]
      by_cases hp : p.1 = s
      · simp [hp] at h
      · rw [if_neg hp] at h ⊢
        exact ih h

theorem lookupSrc_isSome_iff {m : VariableMap} {s : SourceId} :
    (lookupSrc m s).isSome = true ↔ s ∈ m.map Prod.fst := by
  induction m with
  | nil => simp [lookupSrc]
  | cons p rest ih =>
      rw [lookupSrc]
      by_cases hp : p.1 = s
      · simp [hp]
      · simp only [if_neg hp, List.map_cons, List.mem_cons, ih]
        constructor
        · exact fun h => Or.inr h
        · rintro (h | h)
          · exact absurd h.symm hp
          · exact h

theorem lookupSrc_mem {m : VariableMap} {s : SourceId} {vs : List Nat}
    (h : lookupSrc m s = some vs) : (s, vs) ∈ m := by
  induction m with
  | nil => simp [lookupSrc] at h
  | cons p rest ih =>
      rw [lookupSrc] at h
      by_cases hp : p.1 = s
      · rw [if_pos hp] at h
        obtain ⟨ps, pvs⟩ := p
        subst hp
        injection h with h1
        subst h1
        exact List.mem_cons_self _ _
      · rw [if_neg hp] at h
        exact List.mem_cons_of_mem _ (ih h)

theorem mem_lookupSrc {m : VariableMap} {s : SourceId} {vs : List Nat}
    (hnd : (m.map Prod.fst).Nodup) (h : (s, vs) ∈ m) : lookupSrc m s = some vs := by
  induction m with
  | nil => simp at h
  | cons p rest ih =>
      rw [List.map_cons, List.nodup_cons] at hnd
      rcases List.mem_cons.mp h with h1 | h1
      · subst h1
        simp [lookupSrc]
      · rw [lookupSrc]
        have hps : p.1 ≠ s := by
          intro he
          exact hnd.1 (he ▸ List.mem_map.mpr ⟨(s, vs), h1, rfl⟩)
        rw [if_neg hps]
        exact ih hnd.2 h1

theorem appendVars_of_absent {m : VariableMap} {t : SourceId} {vs : List Nat}
    (h : lookupSrc m t = none) : appendVars m t vs = m ++ [(t, vs)] := by
  induction m with
  | nil => simp [appendVars]
  | cons p rest ih =>
      rw [lookupSrc] at h
      by_cases hp : p.1 = t
      · simp [hp] at h
      · rw [if_neg hp] at h
        cases p
        rw [appendVars, if_neg hp, ih h, List.cons_append]

theorem getFieldVariable_append {m l : VariableMap} {f : GField}
    (h : (lookupSrc m f.source).isSome = true) :
    getFieldVariable (m ++ l) f = getFieldVariable m f := by
  rcases Option.isSome_iff_exists.mp h with ⟨vs, hvs⟩
  unfold getFieldVariable
  rw [hvs, lookupSrc_append_left hvs]

/-! ## Lemmas about procedure bodies -/

theorem callOutputs_append (a b : List Instruction) :
    callOutputs (a ++ b) = callOutputs a ++ callOutputs b := by
  induction a with
  | nil => simp [callOutputs]
  | cons i rest ih => cases i <;> simp [callOutputs, ih]

theorem callOps_append (a b : List Instruction) :
    callOps (a ++ b) = callOps a ++ callOps b := by
  induction a with
  | nil => simp [callOps]
  | cons i rest ih => cases i <;> simp [callOps, ih]

theorem validateBody_append (avail : List Nat) (a b : List Instruction) :
    validateBody avail (a ++ b) =
      (validateBody avail a && validateBody (avail ++ callOutputs a) b) := by
  induction a generalizing avail with
  | nil => simp [validateBody, callOutputs]
  | cons i rest ih =>
      cases i with
      | call j ins outs =>
          simp [validateBody, callOutputs, ih, List.append_assoc, Bool.and_assoc]
      | destruct v => simp [validateBody, callOutputs, ih]
      | ret => simp [validateBody, callOutputs, ih]

/-! ## Lemmas about reachability -/

theorem mem_foldr_union {α : Type} {l : List α} {g : α → Finset SourceId}
    {s : SourceId} :
    s ∈ l.foldr (fun f acc => g f ∪ acc) ∅ ↔ ∃ f ∈ l, s ∈ g f := by
  induction l with
  | nil => simp
  | cons a rest ih => simp [ih]

theorem self_mem_reachOp (ctx : FieldContext) (j : Nat) :
    SourceId.operation j ∈ reachOp ctx j := by
  rw [reachOp]
  exact Finset.mem_insert_self _ _

theorem self_mem_reachSrc (ctx : FieldContext) (s : SourceId) :
    s ∈ reachSrc ctx s := by
  cases s with
  | input i => simp [reachSrc]
  | operation j => exact self_mem_reachOp ctx j

theorem mem_reachOp_iff {ctx : FieldContext} {j : Nat} {s : SourceId} :
    s ∈ reachOp ctx j ↔ s = SourceId.operation j ∨
      ∃ f ∈ ctx.opInputs j, s ∈ (match f.source with
        | .input i => ({SourceId.input i} : Finset SourceId)
        | .operation k => if _h : k < j then reachOp ctx k
                          else {SourceId.operation k}) := by
  rw [reachOp]
  simp only [Finset.mem_insert]
  rw [mem_foldr_union]

theorem reachSrc_child_subset {ctx : FieldContext} (hwf : ctx.WF) {j : Nat}
    (hj : j < ctx.numOps) {f : GField} (hf : f ∈ ctx.opInputs j) :
    reachSrc ctx f.source ⊆ reachOp ctx j := by
  intro s hs
  rw [mem_reachOp_iff]
  right
  refine ⟨f, hf, ?_⟩
  rcases hsrc : f.source with i | k
  · rw [hsrc] at hs
    simpa [reachSrc] using hs
  · have hk : k < j := by
      have := (hwf j hj f hf).2
      rw [hsrc] at this
      exact this
    rw [hsrc] at hs
    simp only [reachSrc] at hs
    simp [hk, hs]

theorem reachFields_mem {ctx : FieldContext} {fields : List GField} {s : SourceId} :
    s ∈ reachFields ctx fields ↔ ∃ f ∈ fields, s ∈ reachSrc ctx f.source := by
  unfold reachFields
  exact mem_foldr_union

theorem reachFields_reverse {ctx : FieldContext} {fields : List GField} :
    reachFields ctx fields.reverse = reachFields ctx fields := by
  ext s
  simp only [reachFields_mem, List.mem_reverse]

theorem GField.valid_validIn {ctx : FieldContext} {f : GField} (h : f.valid ctx) :
    f.source.validIn ctx := by
  rcases f with ⟨s, k⟩
  cases s with
  | input i => exact h.1
  | operation j => exact h.1

theorem reachOp_validIn {ctx : FieldContext} (hwf : ctx.WF) :
    ∀ j, j < ctx.numOps → ∀ s ∈ reachOp ctx j, s.validIn ctx := by
  intro j
  induction j using Nat.strong_induction_on with
  | _ j ih =>
      intro hj s hs
      rcases mem_reachOp_iff.mp hs with h | ⟨f, hf, hfs⟩
      · subst h
        exact hj
      · rcases hsrc : f.source with i | k
        · rw [hsrc] at hfs
          simp only [Finset.mem_singleton] at hfs
          subst hfs
          have := (hwf j hj f hf).1
          rcases f with ⟨s', k'⟩
          cases hsrc
          exact this.1
        · have hk : k < j := by
            have := (hwf j hj f hf).2
            rw [hsrc] at this
            exact this
          rw [hsrc] at hfs
          simp only [hk, dif_pos] at hfs
          exact ih k hk (lt_trans hk hj) s hfs

theorem reachOp_trans {ctx : FieldContext} (hwf : ctx.WF) :
    ∀ j, j < ctx.numOps → ∀ s ∈ reachOp ctx j, reachSrc ctx s ⊆ reachOp ctx j := by
  intro j
  induction j using Nat.strong_induction_on with
  | _ j ih =>
      intro hj s hs
      rcases mem_reachOp_iff.mp hs with h | ⟨f, hf, hfs⟩
      · subst h
        simp [reachSrc]
      · rcases hsrc : f.source with i | k
        · rw [hsrc] at hfs
          simp only [Finset.mem_singleton] at hfs
          subst hfs
          intro t ht
          simp only [reachSrc, Finset.mem_singleton] at ht
          subst ht
          exact hs
        · have hk : k < j := by
            have := (hwf j hj f hf).2
            rw [hsrc] at this
            exact this
          rw [hsrc] at hfs
          simp only [hk, dif_pos] at hfs
          have h1 : reachSrc ctx s ⊆ reachOp ctx k :=
            ih k hk (lt_trans hk hj) s hfs
          have h2 : reachOp ctx k ⊆ reachOp ctx j := by
            have := reachSrc_child_subset hwf hj hf
            rw [hsrc] at this
            exact this
          exact h1.trans h2

theorem reachSrc_trans {ctx : FieldContext} (hwf : ctx.WF) {t : SourceId}
    (ht : t.validIn ctx) {s : SourceId} (hs : s ∈ reachSrc ctx t) :
    reachSrc ctx s ⊆ reachSrc ctx t := by
  cases t with
  | input i =>
      simp only [reachSrc, Finset.mem_singleton] at hs
      subst hs
      exact Finset.Subset.refl _
  | operation j => exact reachOp_trans hwf j ht s hs

theorem reachFields_closed {ctx : FieldContext} (hwf : ctx.WF)
    {F0 : List GField} (hbase : ∀ f ∈ F0, f.valid ctx) {s : SourceId}
    (hs : s ∈ reachFields ctx F0) : reachSrc ctx s ⊆ reachFields ctx F0 := by
  rcases reachFields_mem.mp hs with ⟨g, hg, hgs⟩
  intro t ht
  exact reachFields_mem.mpr
    ⟨g, hg, reachSrc_trans hwf (GField.valid_validIn (hbase g hg)) hgs ht⟩

/-! ## More helper lemmas for the build invariant -/

theorem lookupSrc_append_cases {m l : VariableMap} {s : SourceId} {vs : List Nat}
    (h : lookupSrc (m ++ l) s = some vs) :
    lookupSrc m s = some vs ∨ (lookupSrc m s = none ∧ lookupSrc l s = some vs) := by
  cases hm : lookupSrc m s with
  | none => exact Or.inr ⟨rfl, by rw [lookupSrc_append_right hm] at h; exact h⟩
  | some ws =>
      left
      rw [lookupSrc_append_left hm] at h
      exact h

theorem lookupSrc_single {t : SourceId} {ws : List Nat} {s : SourceId} :
    lookupSrc [(t, ws)] s = if t = s then some ws else none := by
  rw [lookupSrc]
  by_cases h : t = s <;> simp [h, lookupSrc]

theorem lookupSrc_append_single_ne {m : VariableMap} {t : SourceId}
    {ws : List Nat} {s : SourceId} (hne : t ≠ s) :
    lookupSrc (m ++ [(t, ws)]) s = lookupSrc m s := by
  cases hm : lookupSrc m s with
  | none => rw [lookupSrc_append_right hm, lookupSrc_single, if_neg hne]
  | some vs => exact lookupSrc_append_left hm

theorem isSome_lookupSrc_append {m l : VariableMap} {s : SourceId}
    (h : (lookupSrc m s).isSome = true) :
    (lookupSrc (m ++ l) s).isSome = true := by
  rcases Option.isSome_iff_exists.mp h with ⟨vs, hvs⟩
  rw [lookupSrc_append_left hvs]
  rfl

theorem validateBody_mono {body : List Instruction} :
    ∀ {avail avail' : List Nat}, (∀ x ∈ avail, x ∈ avail') →
    validateBody avail body = true → validateBody avail' body = true := by
  induction body with
  | nil => intro _ _ _ _; rfl
  | cons i rest ih =>
      intro avail avail' hsub h
      cases i with
      | call j ins outs =>
          rw [validateBody, Bool.and_eq_true] at h ⊢
          refine ⟨?_, ih ?_ h.2⟩
          · rw [List.all_eq_true] at h ⊢
            intro v hv
            have := h.1 v hv
            rw [decide_eq_true_iff] at this ⊢
            exact hsub v this
          · intro x hx
            rw [List.mem_append] at hx ⊢
            rcases hx with hx | hx
            · exact Or.inl (hsub x hx)
            · exact Or.inr hx
      | destruct v => exact ih hsub h
      | ret => exact ih hsub h

theorem mem_callOps_iff {j : Nat} {body : List Instruction} :
    j ∈ callOps body ↔ ∃ ins outs, Instruction.call j ins outs ∈ body := by
  induction body with
  | nil => simp [callOps]
  | cons i rest ih =>
      cases i with
      | call j' ins' outs' =>
          simp only [callOps, List.mem_cons, ih]
          constructor
          · rintro (rfl | ⟨ins, outs, h⟩)
            · exact ⟨ins', outs', Or.inl rfl⟩
            · exact ⟨ins, outs, Or.inr h⟩
          · rintro ⟨ins, outs, h | h⟩
            · injection h with h1 h2 h3
              exact Or.inl h1
            · exact Or.inr ⟨ins, outs, h⟩
      | destruct v => simp [callOps, ih]
      | ret => simp [callOps, ih]

theorem firstMissing_eq_none {m : VariableMap} {l : List GField} :
    firstMissing m l = none ↔ ∀ f ∈ l, (lookupSrc m f.source).isSome = true := by
  induction l with
  | nil => simp [firstMissing]
  | cons f rest ih =>
      rw [firstMissing]
      by_cases h : (lookupSrc m f.source).isSome = true
      · simp [h, ih]
      · simp [h]

theorem firstMissing_eq_some {m : VariableMap} {l : List GField} {d : GField}
    (h : firstMissing m l = some d) : d ∈ l ∧ lookupSrc m d.source = none := by
  induction l with
  | nil => simp [firstMissing] at h
  | cons f rest ih =>
      rw [firstMissing] at h
      by_cases hf : (lookupSrc m f.source).isSome = true
      · rw [if_pos hf] at h
        rcases ih h with ⟨h1, h2⟩
        exact ⟨List.mem_cons_of_mem _ h1, h2⟩
      · rw [if_neg hf] at h
        injection h with h1
        subst h1
        exact ⟨List.mem_cons_self _ _, Option.not_isSome_iff_eq_none.mp hf⟩

theorem getFieldVariable_mem {m : VariableMap} {f : GField} {vs : List Nat}
    (hl : lookupSrc m f.source = some vs)
    (hsingle : ∀ i, f.source = SourceId.input i → ∃ v, vs = [v])
    (hidx : ∀ j, f.source = SourceId.operation j → f.outIndex < vs.length) :
    getFieldVariable m f ∈ vs := by
  rcases hs : f.source with i | j
  · rcases hsingle i hs with ⟨v, hv⟩
    subst hv
    unfold getFieldVariable
    rw [hs]
    rw [hs] at hl
    rw [hl]
    exact List.mem_cons_self _ _
  · have hlt : f.outIndex < vs.length := hidx j hs
    unfold getFieldVariable
    rw [hs]
    rw [hs] at hl
    rw [hl]
    simp only [Option.getD_some]
    rw [List.getD_eq_getElem?_getD, List.getElem?_eq_getElem hlt]
    exact List.getElem_mem hlt

/-! ## The build-loop invariant -/

theorem inv_init {ctx : FieldContext} {F0 : List GField}
    (hbase : ∀ f ∈ F0, f.valid ctx) : Inv ctx F0 (initState F0) := by
  refine ⟨?_, ?_, ?_, ?_, ?_, ?_, ?_, ?_, ?_, ?_, ?_, ?_, ?_, ?_, ?_, ?_, ?_, ?_, ?_⟩
  · exact List.nodup_nil
  · intro p hp; simp [initState] at hp
  · exact List.nodup_nil
  · exact List.nodup_nil
  · intro v hv; simp [initState, producedVars, Procedure.empty, callOutputs] at hv
  · rfl
  · rfl
  · intro i vs h; simp [initState, lookupSrc] at h
  · intro j vs h; simp [initState, lookupSrc] at h
  · intro j ins outs h; simp [initState, Procedure.empty] at h
  · intro instr h; simp [initState, Procedure.empty] at h
  · exact List.nodup_nil
  · rfl
  · intro v hv; simp [initState] at hv
  · intro f hf
    rw [initState] at hf
    exact hbase f (List.mem_reverse.mp hf)
  · intro f hf
    rw [initState] at hf
    exact reachFields_mem.mpr
      ⟨f, List.mem_reverse.mp hf, self_mem_reachSrc ctx f.source⟩
  · intro p hp; simp [initState] at hp
  · intro s hs
    right
    rcases reachFields_mem.mp hs with ⟨f, hf, hfs⟩
    exact ⟨f, by rw [initState]; exact List.mem_reverse.mpr hf, hfs⟩
  · intro p hp; simp [initState] at hp

theorem inv_step_mapped {ctx : FieldContext} {F0 : List GField}
    {proc : Procedure} {vmap : VariableMap} {f : GField} {rest : List GField}
    (hinv : Inv ctx F0 ⟨proc, vmap, f :: rest⟩)
    (hsome : (lookupSrc vmap f.source).isSome = true) :
    Inv ctx F0 ⟨proc, vmap, rest⟩ := by
  refine ⟨hinv.keysNodup, hinv.keysValid, hinv.flatNodup, hinv.producedNodup,
    hinv.producedLt, hinv.outParamsNil, hinv.inputEntriesEq, hinv.inputEntry,
    hinv.opEntry, hinv.callInv, hinv.bodyCalls, hinv.callOpsNodup, hinv.validBody,
    hinv.valsProduced, ?_, ?_, hinv.keysReach, ?_, hinv.mapClosed⟩
  · exact fun g hg => hinv.stackValid g (List.mem_cons_of_mem _ hg)
  · exact fun g hg => hinv.stackReach g (List.mem_cons_of_mem _ hg)
  · intro s hs
    rcases hinv.coverage s hs with hk | ⟨g, hg, hgs⟩
    · exact Or.inl hk
    · rcases List.mem_cons.mp hg with hg1 | hg1
      · subst hg1
        left
        rcases Option.isSome_iff_exists.mp hsome with ⟨vs, hvs⟩
        exact hinv.mapClosed (g.source, vs) (lookupSrc_mem hvs) s hgs
      · exact Or.inr ⟨g, hg1, hgs⟩

theorem inv_step_blocked {ctx : FieldContext} {F0 : List GField}
    (hwf : ctx.WF) (hbase : ∀ f ∈ F0, f.valid ctx)
    {proc : Procedure} {vmap : VariableMap} {f : GField} {rest : List GField}
    (hinv : Inv ctx F0 ⟨proc, vmap, f :: rest⟩)
    {j : Nat} (hj : f.source = SourceId.operation j)
    {d : GField} (hd : firstMissing vmap (ctx.opInputs j) = some d) :
    Inv ctx F0 ⟨proc, vmap, d :: f :: rest⟩ := by
  have hjlt : j < ctx.numOps := by
    have := hinv.stackValid f (List.mem_cons_self _ _)
    rw [GField.valid, hj] at this
    exact this.1
  have hdmem : d ∈ ctx.opInputs j := (firstMissing_eq_some hd).1
  have hdvalid : d.valid ctx := (hwf j hjlt d hdmem).1
  have hdreach : d.source ∈ reachFields ctx F0 := by
    have h1 : d.source ∈ reachOp ctx j :=
      reachSrc_child_subset hwf hjlt hdmem (self_mem_reachSrc ctx d.source)
    have h2 : SourceId.operation j ∈ reachFields ctx F0 := by
      have := hinv.stackReach f (List.mem_cons_self _ _)
      rw [hj] at this
      exact this
    have h3 := reachFields_closed hwf hbase h2
    rw [reachSrc] at h3
    exact h3 h1
  refine ⟨hinv.keysNodup, hinv.keysValid, hinv.flatNodup, hinv.producedNodup,
    hinv.producedLt, hinv.outParamsNil, hinv.inputEntriesEq, hinv.inputEntry,
    hinv.opEntry, hinv.callInv, hinv.bodyCalls, hinv.callOpsNodup, hinv.validBody,
    hinv.valsProduced, ?_, ?_, hinv.keysReach, ?_, hinv.mapClosed⟩
  · intro g hg
    rcases List.mem_cons.mp hg with hg1 | hg1
    · subst hg1; exact hdvalid
    · exact hinv.stackValid g hg1
  · intro g hg
    rcases List.mem_cons.mp hg with hg1 | hg1
    · subst hg1; exact hdreach
    · exact hinv.stackReach g hg1
  · intro s hs
    rcases hinv.coverage s hs with hk | ⟨g, hg, hgs⟩
    · exact Or.inl hk
    · exact Or.inr ⟨g, List.mem_cons_of_mem _ hg, hgs⟩

theorem nextVar_not_produced {proc : Procedure}
    (hlt : ∀ v ∈ producedVars proc, v < proc.nextVar) :
    proc.nextVar ∉ producedVars proc := fun h => lt_irrefl _ (hlt _ h)

theorem inv_step_input {ctx : FieldContext} {F0 : List GField}
    {proc : Procedure} {vmap : VariableMap} {f : GField} {rest : List GField}
    (hinv : Inv ctx F0 ⟨proc, vmap, f :: rest⟩)
    {i : Nat} (hi : f.source = SourceId.input i)
    (hnone : lookupSrc vmap f.source = none) :
    Inv ctx F0
      ⟨⟨proc.nextVar + 1, proc.inputParams ++ [(proc.nextVar, ctx.inputName i)],
          proc.outputParams, proc.body⟩,
        vmap ++ [(SourceId.input i, [proc.nextVar])], rest⟩ := by
  have hkeynot : SourceId.input i ∉ vmap.map Prod.fst := by
    intro hmem
    rw [← lookupSrc_isSome_iff] at hmem
    rw [hi] at hnone
    rw [hnone] at hmem
    exact absurd hmem (by simp)
  have hproduced' : producedVars
      ⟨proc.nextVar + 1, proc.inputParams ++ [(proc.nextVar, ctx.inputName i)],
        proc.outputParams, proc.body⟩ =
      (proc.inputParams.map Prod.fst) ++ proc.nextVar :: callOutputs proc.body := by
    simp [producedVars]
  have hmemProduced : ∀ v, v ∈ producedVars proc →
      v ∈ (proc.inputParams.map Prod.fst) ++ proc.nextVar :: callOutputs proc.body := by
    intro v hv
    rw [producedVars, List.mem_append] at hv
    rcases hv with hv | hv
    · exact List.mem_append_left _ hv
    · exact List.mem_append_right _ (List.mem_cons_of_mem _ hv)
  have hfresh : proc.nextVar ∉ producedVars proc := nextVar_not_produced hinv.producedLt
  have hfvalid := hinv.stackValid f (List.mem_cons_self _ _)
  have hlift : ∀ g : GField, (lookupSrc vmap g.source).isSome = true →
      getFieldVariable (vmap ++ [(SourceId.input i, [proc.nextVar])]) g =
        getFieldVariable vmap g :=
    fun g hg => getFieldVariable_append hg
  refine ⟨?_, ?_, ?_, ?_, ?_, ?_, ?_, ?_, ?_, ?_, hinv.bodyCalls, hinv.callOpsNodup,
    ?_, ?_, ?_, ?_, ?_, ?_, ?_⟩
  · rw [List.map_append, List.nodup_append]
    refine ⟨hinv.keysNodup, by simp, ?_⟩
    intro s hs1 hs2
    simp only [List.map_cons, List.map_nil, List.mem_singleton] at hs2
    subst hs2
    exact hkeynot hs1
  · intro p hp
    rcases List.mem_append.mp hp with hp1 | hp1
    · exact hinv.keysValid p hp1
    · simp only [List.mem_singleton] at hp1
      subst hp1
      rw [GField.valid, hi] at hfvalid
      exact hfvalid.1
  · rw [List.flatMap_append]
    simp only [List.flatMap_cons, List.flatMap_nil, List.append_nil]
    rw [List.nodup_append]
    refine ⟨hinv.flatNodup, by simp, ?_⟩
    intro v hv1 hv2
    simp only [List.mem_singleton] at hv2
    subst hv2
    exact hfresh (hinv.valsProduced _ hv1)
  · rw [hproduced']
    rw [List.nodup_middle]
    rw [List.nodup_cons]
    refine ⟨?_, hinv.producedNodup⟩
    rw [← producedVars]
    exact hfresh
  · intro v hv
    rw [hproduced'] at hv
    rcases List.mem_append.mp hv with hv1 | hv1
    · have : v ∈ producedVars proc := List.mem_append_left _ hv1
      exact lt_trans (hinv.producedLt v this) (Nat.lt_succ_self _)
    · rcases List.mem_cons.mp hv1 with hv2 | hv2
      · subst hv2; exact Nat.lt_succ_self _
      · have : v ∈ producedVars proc := List.mem_append_right _ hv2
        exact lt_trans (hinv.producedLt v this) (Nat.lt_succ_self _)
  · exact hinv.outParamsNil
  · show proc.inputParams ++ [(proc.nextVar, ctx.inputName i)] =
      inputEntries ctx (vmap ++ [(SourceId.input i, [proc.nextVar])])
    rw [inputEntries, List.filterMap_append]
    rw [hinv.inputEntriesEq]
    rfl
  · intro i' vs h
    rcases lookupSrc_append_cases h with h1 | ⟨h1, h2⟩
    · exact hinv.inputEntry i' vs h1
    · rw [lookupSrc_single] at h2
      by_cases he : SourceId.input i = SourceId.input i'
      · rw [if_pos he] at h2
        injection h2 with h3
        exact ⟨proc.nextVar, h3.symm⟩
      · rw [if_neg he] at h2
        exact absurd h2 (by simp)
  · intro j vs h
    rcases lookupSrc_append_cases h with h1 | ⟨h1, h2⟩
    · rcases hinv.opEntry j vs h1 with ⟨hdeps, hcall⟩
      refine ⟨fun g hg => isSome_lookupSrc_append (hdeps g hg), ?_⟩
      have : (ctx.opInputs j).map
          (getFieldVariable (vmap ++ [(SourceId.input i, [proc.nextVar])])) =
          (ctx.opInputs j).map (getFieldVariable vmap) :=
        List.map_congr_left fun g hg => hlift g (hdeps g hg)
      rw [this]
      exact hcall
    · rw [lookupSrc_single] at h2
      rw [if_neg (by simp)] at h2
      exact absurd h2 (by simp)
  · intro j ins outs h
    rcases hinv.callInv j ins outs h with ⟨hj, hlen, hlook, hins⟩
    rcases hinv.opEntry j outs hlook with ⟨hdeps, _⟩
    refine ⟨hj, hlen, lookupSrc_append_left hlook, ?_⟩
    rw [hins]
    exact (List.map_congr_left fun g hg => hlift g (hdeps g hg)).symm
  · show validateBody
      ((proc.inputParams ++ [(proc.nextVar, ctx.inputName i)]).map Prod.fst)
        proc.body = true
    refine validateBody_mono ?_ hinv.validBody
    intro x hx
    rw [List.map_append]
    exact List.mem_append_left _ hx
  · intro v hv
    rw [List.flatMap_append] at hv
    rw [hproduced']
    rcases List.mem_append.mp hv with hv1 | hv1
    · exact hmemProduced v (hinv.valsProduced v hv1)
    · simp only [List.flatMap_cons, List.flatMap_nil, List.append_nil,
        List.mem_singleton] at hv1
      subst hv1
      exact List.mem_append_right _ (List.mem_cons_self _ _)
  · exact fun g hg => hinv.stackValid g (List.mem_cons_of_mem _ hg)
  · exact fun g hg => hinv.stackReach g (List.mem_cons_of_mem _ hg)
  · intro p hp
    rcases List.mem_append.mp hp with hp1 | hp1
    · exact hinv.keysReach p hp1
    · simp only [List.mem_singleton] at hp1
      subst hp1
      have := hinv.stackReach f (List.mem_cons_self _ _)
      rw [hi] at this
      exact this
  · intro s hs
    rcases hinv.coverage s hs with hk | ⟨g, hg, hgs⟩
    · left
      rw [List.map_append]
      exact List.mem_append_left _ hk
    · rcases List.mem_cons.mp hg with hg1 | hg1
      · subst hg1
        left
        rw [hi] at hgs
        simp only [reachSrc, Finset.mem_singleton] at hgs
        subst hgs
        rw [List.map_append]
        exact List.mem_append_right _ (by simp)
      · exact Or.inr ⟨g, hg1, hgs⟩
  · intro p hp s hs
    rw [List.map_append]
    rcases List.mem_append.mp hp with hp1 | hp1
    · exact List.mem_append_left _ (hinv.mapClosed p hp1 s hs)
    · simp only [List.mem_singleton] at hp1
      subst hp1
      simp only [reachSrc, Finset.mem_singleton] at hs
      subst hs
      exact List.mem_append_right _ (by simp)

theorem inputEntries_append_op {ctx : FieldContext} {m : VariableMap} {j : Nat}
    {outs : List Nat} :
    inputEntries ctx (m ++ [(SourceId.operation j, outs)]) = inputEntries ctx m := by
  unfold inputEntries
  rw [List.filterMap_append]
  simp [List.filterMap]

theorem mem_child_reachSrc {ctx : FieldContext} (hwf : ctx.WF) {j : Nat}
    (hj : j < ctx.numOps) {g : GField} (hg : g ∈ ctx.opInputs j) {s : SourceId}
    (hs : s ∈ (match g.source with
      | .input i => ({SourceId.input i} : Finset SourceId)
      | .operation k => if _h : k < j then reachOp ctx k
                        else {SourceId.operation k})) :
    s ∈ reachSrc ctx g.source := by
  rcases hsrc : g.source with i | k
  · rw [hsrc] at hs
    rw [reachSrc]
    exact hs
  · have hk : k < j := by
      have := (hwf j hj g hg).2
      rw [hsrc] at this
      exact this
    rw [hsrc] at hs
    simp only [hk, dif_pos] at hs
    rw [reachSrc]
    exact hs

/-- The variable resolved for a mapped field is an element of its map entry
and hence already produced, given the invariant. -/
theorem getFieldVariable_produced {ctx : FieldContext} {F0 : List GField}
    {proc : Procedure} {vmap : VariableMap} {stack : List GField}
    (hinv : Inv ctx F0 ⟨proc, vmap, stack⟩) {g : GField} (hg : g.valid ctx)
    (hsome : (lookupSrc vmap g.source).isSome = true) :
    getFieldVariable vmap g ∈ producedVars proc := by
  rcases Option.isSome_iff_exists.mp hsome with ⟨vs, hvs⟩
  have hmem : getFieldVariable vmap g ∈ vs := by
    refine getFieldVariable_mem hvs ?_ ?_
    · intro i hi
      exact hinv.inputEntry i vs (hi ▸ hvs)
    · intro k hk
      rcases hinv.opEntry k vs (hk ▸ hvs) with ⟨_, hcall⟩
      rcases hinv.callInv k _ vs hcall with ⟨_, hlen, _, _⟩
      rw [hlen]
      rw [GField.valid, hk] at hg
      exact hg.2
  refine hinv.valsProduced _ ?_
  rw [List.mem_flatMap]
  exact ⟨(g.source, vs), lookupSrc_mem hvs, hmem⟩

theorem inv_step_emit {ctx : FieldContext} {F0 : List GField} (hwf : ctx.WF)
    {proc : Procedure} {vmap : VariableMap} {f : GField} {rest : List GField}
    (hinv : Inv ctx F0 ⟨proc, vmap, f :: rest⟩)
    {j : Nat} (hj : f.source = SourceId.operation j)
    (hnone : lookupSrc vmap f.source = none)
    (hmiss : firstMissing vmap (ctx.opInputs j) = none) :
    Inv ctx F0
      ⟨⟨proc.nextVar + (ctx.opFn j).numOutputs, proc.inputParams, proc.outputParams,
          proc.body ++ [Instruction.call j
            ((ctx.opInputs j).map (getFieldVariable vmap))
            ((List.range (ctx.opFn j).numOutputs).map fun l => proc.nextVar + l)]⟩,
        vmap ++ [(SourceId.operation j,
          (List.range (ctx.opFn j).numOutputs).map fun l => proc.nextVar + l)],
        rest⟩ := by
  set n := (ctx.opFn j).numOutputs with hn
  set outs := (List.range n).map fun l => proc.nextVar + l with houts
  set ins := (ctx.opInputs j).map (getFieldVariable vmap) with hins
  have hjlt : j < ctx.numOps := by
    have := hinv.stackValid f (List.mem_cons_self _ _)
    rw [GField.valid, hj] at this
    exact this.1
  have hkeynot : SourceId.operation j ∉ vmap.map Prod.fst := by
    intro hmem
    rw [← lookupSrc_isSome_iff] at hmem
    rw [hj] at hnone
    rw [hnone] at hmem
    exact absurd hmem (by simp)
  have hdeps : ∀ g ∈ ctx.opInputs j, (lookupSrc vmap g.source).isSome = true :=
    firstMissing_eq_none.mp hmiss
  have houtsNodup : outs.Nodup := by
    rw [houts]
    exact (List.nodup_range _).map fun a b h => Nat.add_left_cancel h
  have houtsGe : ∀ v ∈ outs, proc.nextVar ≤ v := by
    intro v hv
    rw [houts] at hv
    rcases List.mem_map.mp hv with ⟨l, _, hl⟩
    subst hl
    exact Nat.le_add_right _ _
  have houtsLt : ∀ v ∈ outs, v < proc.nextVar + n := by
    intro v hv
    rw [houts] at hv
    rcases List.mem_map.mp hv with ⟨l, hlmem, hl⟩
    subst hl
    exact Nat.add_lt_add_left (List.mem_range.mp hlmem) _
  have houtsLen : outs.length = n := by
    rw [houts, List.length_map, List.length_range]
  have houtsFresh : ∀ v ∈ outs, v ∉ producedVars proc := by
    intro v hv hcon
    exact absurd (hinv.producedLt v hcon) (not_lt.mpr (houtsGe v hv))
  have hinsProduced : ∀ v ∈ ins, v ∈ producedVars proc := by
    intro v hv
    rw [hins] at hv
    rcases List.mem_map.mp hv with ⟨g, hgmem, hgv⟩
    subst hgv
    exact getFieldVariable_produced hinv (hwf j hjlt g hgmem).1 (hdeps g hgmem)
  have hlift : ∀ g : GField, (lookupSrc vmap g.source).isSome = true →
      getFieldVariable (vmap ++ [(SourceId.operation j, outs)]) g =
        getFieldVariable vmap g :=
    fun g hg => getFieldVariable_append hg
  have hinsLift : (ctx.opInputs j).map
      (getFieldVariable (vmap ++ [(SourceId.operation j, outs)])) = ins := by
    rw [hins]
    exact List.map_congr_left fun g hg => hlift g (hdeps g hg)
  have hproduced' :
      (proc.inputParams.map Prod.fst) ++
        callOutputs (proc.body ++ [Instruction.call j ins outs]) =
      producedVars proc ++ outs := by
    rw [callOutputs_append]
    show proc.inputParams.map Prod.fst ++
      (callOutputs proc.body ++ (outs ++ callOutputs [])) = _
    rw [producedVars]
    simp [callOutputs, List.append_assoc]
  have hjnotInCalls : j ∉ callOps proc.body := by
    intro hmem
    rcases mem_callOps_iff.mp hmem with ⟨ins', outs', hcall⟩
    rcases hinv.callInv j ins' outs' hcall with ⟨_, _, hlook, _⟩
    rw [hj] at hnone
    rw [hnone] at hlook
    exact absurd hlook (by simp)
  refine ⟨?_, ?_, ?_, ?_, ?_, ?_, ?_, ?_, ?_, ?_, ?_, ?_, ?_, ?_, ?_, ?_, ?_, ?_, ?_⟩
  · rw [List.map_append, List.nodup_append]
    refine ⟨hinv.keysNodup, by simp, ?_⟩
    intro s hs1 hs2
    simp only [List.map_cons, List.map_nil, List.mem_singleton] at hs2
    subst hs2
    exact hkeynot hs1
  · intro p hp
    rcases List.mem_append.mp hp with hp1 | hp1
    · exact hinv.keysValid p hp1
    · simp only [List.mem_singleton] at hp1
      subst hp1
      exact hjlt
  · rw [List.flatMap_append]
    simp only [List.flatMap_cons, List.flatMap_nil, List.append_nil]
    rw [List.nodup_append]
    refine ⟨hinv.flatNodup, houtsNodup, ?_⟩
    intro v hv1 hv2
    exact houtsFresh v hv2 (hinv.valsProduced _ hv1)
  · show ((proc.inputParams.map Prod.fst) ++
      callOutputs (proc.body ++ [Instruction.call j ins outs])).Nodup
    rw [hproduced']
    rw [List.nodup_append]
    exact ⟨hinv.producedNodup, houtsNodup, fun v hv1 hv2 => houtsFresh v hv2 hv1⟩
  · intro v hv
    show v < proc.nextVar + n
    simp only [producedVars] at hv
    rw [hproduced'] at hv
    rcases List.mem_append.mp hv with hv1 | hv1
    · exact lt_of_lt_of_le (hinv.producedLt v hv1) (Nat.le_add_right _ _)
    · exact houtsLt v hv1
  · exact hinv.outParamsNil
  · show proc.inputParams =
      inputEntries ctx (vmap ++ [(SourceId.operation j, outs)])
    rw [inputEntries_append_op]
    exact hinv.inputEntriesEq
  · intro i' vs h
    rcases lookupSrc_append_cases h with h1 | ⟨h1, h2⟩
    · exact hinv.inputEntry i' vs h1
    · rw [lookupSrc_single] at h2
      rw [if_neg (by simp)] at h2
      exact absurd h2 (by simp)
  · intro j' vs h
    rcases lookupSrc_append_cases h with h1 | ⟨h1, h2⟩
    · rcases hinv.opEntry j' vs h1 with ⟨hdeps', hcall⟩
      refine ⟨fun g hg => isSome_lookupSrc_append (hdeps' g hg), ?_⟩
      have : (ctx.opInputs j').map
          (getFieldVariable (vmap ++ [(SourceId.operation j, outs)])) =
          (ctx.opInputs j').map (getFieldVariable vmap) :=
        List.map_congr_left fun g hg => hlift g (hdeps' g hg)
      rw [this]
      exact List.mem_append_left _ hcall
    · rw [lookupSrc_single] at h2
      by_cases he : SourceId.operation j = SourceId.operation j'
      · rw [if_pos he] at h2
        injection h2 with h3
        injection he with he1
        subst he1
        subst h3
        refine ⟨fun g hg => isSome_lookupSrc_append (hdeps g hg), ?_⟩
        rw [hinsLift]
        exact List.mem_append_right _ (List.mem_cons_self _ _)
      · rw [if_neg he] at h2
        exact absurd h2 (by simp)
  · intro j' ins' outs' h
    rcases List.mem_append.mp h with h1 | h1
    · rcases hinv.callInv j' ins' outs' h1 with ⟨hj', hlen, hlook, hinseq⟩
      rcases hinv.opEntry j' outs' hlook with ⟨hdeps', _⟩
      refine ⟨hj', hlen, lookupSrc_append_left hlook, ?_⟩
      rw [hinseq]
      exact (List.map_congr_left fun g hg => hlift g (hdeps' g hg)).symm
    · simp only [List.mem_singleton] at h1
      injection h1 with h2 h3 h4
      subst h2; subst h3; subst h4
      refine ⟨hjlt, houtsLen, ?_, hinsLift.symm⟩
      rw [lookupSrc_append_right (hj ▸ hnone), lookupSrc_single, if_pos rfl]
  · intro instr h
    rcases List.mem_append.mp h with h1 | h1
    · exact hinv.bodyCalls instr h1
    · simp only [List.mem_singleton] at h1
      exact ⟨j, ins, outs, h1⟩
  · rw [callOps_append]
    show (callOps proc.body ++ (j :: callOps [])).Nodup
    rw [List.nodup_append]
    refine ⟨hinv.callOpsNodup, by simp [callOps], ?_⟩
    intro x hx1 hx2
    simp only [callOps, List.mem_singleton] at hx2
    subst hx2
    exact hjnotInCalls hx1
  · rw [validateBody_append, Bool.and_eq_true]
    refine ⟨hinv.validBody, ?_⟩
    rw [validateBody, Bool.and_eq_true]
    refine ⟨?_, rfl⟩
    rw [List.all_eq_true]
    intro v hv
    rw [decide_eq_true_iff]
    exact hinsProduced v hv
  · intro v hv
    rw [List.flatMap_append] at hv
    show v ∈ (proc.inputParams.map Prod.fst) ++
      callOutputs (proc.body ++ [Instruction.call j ins outs])
    rw [hproduced']
    rcases List.mem_append.mp hv with hv1 | hv1
    · exact List.mem_append_left _ (hinv.valsProduced v hv1)
    · simp only [List.flatMap_cons, List.flatMap_nil, List.append_nil] at hv1
      exact List.mem_append_right _ hv1
  · exact fun g hg => hinv.stackValid g (List.mem_cons_of_mem _ hg)
  · exact fun g hg => hinv.stackReach g (List.mem_cons_of_mem _ hg)
  · intro p hp
    rcases List.mem_append.mp hp with hp1 | hp1
    · exact hinv.keysReach p hp1
    · simp only [List.mem_singleton] at hp1
      subst hp1
      have := hinv.stackReach f (List.mem_cons_self _ _)
      rw [hj] at this
      exact this
  · intro s hs
    rcases hinv.coverage s hs with hk | ⟨g, hg, hgs⟩
    · left
      rw [List.map_append]
      exact List.mem_append_left _ hk
    · rcases List.mem_cons.mp hg with hg1 | hg1
      · subst hg1
        rw [hj, reachSrc] at hgs
        rcases mem_reachOp_iff.mp hgs with hs1 | ⟨g', hg', hgs'⟩
        · subst hs1
          left
          rw [List.map_append]
          exact List.mem_append_right _ (by simp)
        · left
          have hsrcReach : s ∈ reachSrc ctx g'.source :=
            mem_child_reachSrc hwf hjlt hg' hgs'
          rcases Option.isSome_iff_exists.mp (hdeps g' hg') with ⟨vs, hvs⟩
          have := hinv.mapClosed (g'.source, vs) (lookupSrc_mem hvs) s hsrcReach
          rw [List.map_append]
          exact List.mem_append_left _ this
      · exact Or.inr ⟨g, hg1, hgs⟩
  · intro p hp s hs
    rw [List.map_append]
    rcases List.mem_append.mp hp with hp1 | hp1
    · exact List.mem_append_left _ (hinv.mapClosed p hp1 s hs)
    · simp only [List.mem_singleton] at hp1
      subst hp1
      simp only [reachSrc] at hs
      rcases mem_reachOp_iff.mp hs with hs1 | ⟨g', hg', hgs'⟩
      · subst hs1
        exact List.mem_append_right _ (by simp)
      · have hsrcReach : s ∈ reachSrc ctx g'.source :=
          mem_child_reachSrc hwf hjlt hg' hgs'
        rcases Option.isSome_iff_exists.mp (hdeps g' hg') with ⟨vs, hvs⟩
        exact List.mem_append_left _
          (hinv.mapClosed (g'.source, vs) (lookupSrc_mem hvs) s hsrcReach)

/-! ## The individual shapes of a worklist step -/

theorem buildStep_mapped_eq {ctx : FieldContext} {proc : Procedure}
    {vmap : VariableMap} {f : GField} {rest : List GField}
    (h : (lookupSrc vmap f.source).isSome = true) :
    buildStep ctx ⟨proc, vmap, f :: rest⟩ = ⟨proc, vmap, rest⟩ := by
  simp [buildStep, h]

theorem buildStep_input_eq {ctx : FieldContext} {proc : Procedure}
    {vmap : VariableMap} {i fo : Nat} {rest : List GField}
    (h : lookupSrc vmap (SourceId.input i) = none) :
    buildStep ctx ⟨proc, vmap, ⟨SourceId.input i, fo⟩ :: rest⟩ =
      ⟨⟨proc.nextVar + 1, proc.inputParams ++ [(proc.nextVar, ctx.inputName i)],
          proc.outputParams, proc.body⟩,
        vmap ++ [(SourceId.input i, [proc.nextVar])], rest⟩ := by
  simp [buildStep, h, GField.isInput, addVariablesForInput, addInputParameter]

theorem buildStep_blocked_eq {ctx : FieldContext} {proc : Procedure}
    {vmap : VariableMap} {j fo : Nat} {rest : List GField} {d : GField}
    (hnone : lookupSrc vmap (SourceId.operation j) = none)
    (hmiss : firstMissing vmap (ctx.opInputs j) = some d) :
    buildStep ctx ⟨proc, vmap, ⟨SourceId.operation j, fo⟩ :: rest⟩ =
      ⟨proc, vmap, d :: ⟨SourceId.operation j, fo⟩ :: rest⟩ := by
  simp [buildStep, hnone, GField.isInput, addVariablesForOperation, hmiss]

theorem buildStep_emit_eq {ctx : FieldContext} {proc : Procedure}
    {vmap : VariableMap} {j fo : Nat} {rest : List GField}
    (hnone : lookupSrc vmap (SourceId.operation j) = none)
    (hmiss : firstMissing vmap (ctx.opInputs j) = none) :
    buildStep ctx ⟨proc, vmap, ⟨SourceId.operation j, fo⟩ :: rest⟩ =
      ⟨⟨proc.nextVar + (ctx.opFn j).numOutputs, proc.inputParams, proc.outputParams,
          proc.body ++ [Instruction.call j
            ((ctx.opInputs j).map (getFieldVariable vmap))
            ((List.range (ctx.opFn j).numOutputs).map fun l => proc.nextVar + l)]⟩,
        vmap ++ [(SourceId.operation j,
          (List.range (ctx.opFn j).numOutputs).map fun l => proc.nextVar + l)],
        rest⟩ := by
  simp [buildStep, hnone, GField.isInput, addVariablesForOperation, hmiss, addCall,
    appendVars_of_absent hnone]

/-- Whenever a step removes the top field from the stack, that field's source
has a map entry in the resulting state. -/
theorem buildStep_popped_mapped {ctx : FieldContext} {proc : Procedure}
    {vmap : VariableMap} {f : GField} {rest : List GField}
    (hpop : (buildStep ctx ⟨proc, vmap, f :: rest⟩).stack = rest) :
    (lookupSrc (buildStep ctx ⟨proc, vmap, f :: rest⟩).vmap f.source).isSome = true := by
  by_cases hlk : (lookupSrc vmap f.source).isSome = true
  · rw [buildStep_mapped_eq hlk]
    exact hlk
  · have hnone : lookupSrc vmap f.source = none := Option.not_isSome_iff_eq_none.mp hlk
    obtain ⟨fs, fo⟩ := f
    cases fs with
    | input i =>
        rw [buildStep_input_eq hnone]
        show (lookupSrc (vmap ++ [(SourceId.input i, [proc.nextVar])])
          (SourceId.input i)).isSome = true
        rw [lookupSrc_append_right hnone, lookupSrc_single, if_pos rfl]
        rfl
    | operation j =>
        cases hmiss : firstMissing vmap (ctx.opInputs j) with
        | some d =>
            rw [buildStep_blocked_eq hnone hmiss] at hpop
            have hlen := congrArg List.length hpop
            simp only [List.length_cons] at hlen
            exact absurd hlen (by omega)
        | none =>
            rw [buildStep_emit_eq hnone hmiss]
            show (lookupSrc (vmap ++ [(SourceId.operation j,
              (List.range (ctx.opFn j).numOutputs).map fun l => proc.nextVar + l)])
              (SourceId.operation j)).isSome = true
            rw [lookupSrc_append_right hnone, lookupSrc_single, if_pos rfl]
            rfl

/-- One worklist step preserves the invariant. -/
theorem inv_step {ctx : FieldContext} {F0 : List GField} (hwf : ctx.WF)
    (hbase : ∀ f ∈ F0, f.valid ctx) {st : BuildState} (hinv : Inv ctx F0 st) :
    Inv ctx F0 (buildStep ctx st) := by
  obtain ⟨proc, vmap, stack⟩ := st
  cases stack with
  | nil => simpa [buildStep] using hinv
  | cons f rest =>
      by_cases hlk : (lookupSrc vmap f.source).isSome = true
      · rw [buildStep_mapped_eq hlk]
        exact inv_step_mapped hinv hlk
      · have hnone : lookupSrc vmap f.source = none :=
          Option.not_isSome_iff_eq_none.mp hlk
        obtain ⟨fs, fo⟩ := f
        cases fs with
        | input i =>
            rw [buildStep_input_eq hnone]
            exact inv_step_input hinv rfl hnone
        | operation j =>
            cases hmiss : firstMissing vmap (ctx.opInputs j) with
            | some d =>
                rw [buildStep_blocked_eq hnone hmiss]
                exact inv_step_blocked hwf hbase hinv rfl hmiss
            | none =>
                rw [buildStep_emit_eq hnone hmiss]
                exact inv_step_emit hwf hinv rfl hnone hmiss

/-- A successful worklist loop ends with an empty stack and preserves the
invariant. -/
theorem inv_loop {ctx : FieldContext} {F0 : List GField} (hwf : ctx.WF)
    (hbase : ∀ f ∈ F0, f.valid ctx) :
    ∀ (fuel : Nat) (st : BuildState), Inv ctx F0 st →
    ∀ st', buildLoop ctx fuel st = some st' → Inv ctx F0 st' ∧ st'.stack = [] := by
  intro fuel
  induction fuel with
  | zero =>
      intro st hinv st' h
      cases hstack : st.stack with
      | nil =>
          rw [buildLoop, hstack] at h
          injection h with h1
          subst h1
          exact ⟨hinv, hstack⟩
      | cons f rest =>
          rw [buildLoop, hstack] at h
          exact absurd h (by simp)
  | succ fuel ih =>
      intro st hinv st' h
      cases hstack : st.stack with
      | nil =>
          rw [buildLoop, hstack] at h
          injection h with h1
          subst h1
          exact ⟨hinv, hstack⟩
      | cons f rest =>
          rw [buildLoop, hstack] at h
          exact ih (buildStep ctx st) (inv_step hwf hbase hinv) st' h

/-! ## Termination of the worklist -/

theorem mem_validSources {ctx : FieldContext} {s : SourceId} :
    s ∈ validSources ctx ↔ s.validIn ctx := by
  cases s with
  | input i => simp [validSources, SourceId.validIn]
  | operation j => simp [validSources, SourceId.validIn]

theorem card_validSources (ctx : FieldContext) :
    (validSources ctx).card = ctx.numInputs + ctx.numOps := by
  rw [validSources, Finset.card_union_of_disjoint]
  · rw [Finset.card_image_of_injective _ fun a b h => by injection h,
      Finset.card_image_of_injective _ fun a b h => by injection h,
      Finset.card_range, Finset.card_range]
  · rw [Finset.disjoint_left]
    intro s hs1 hs2
    simp only [Finset.mem_image] at hs1 hs2
    rcases hs1 with ⟨a, _, ha⟩
    rcases hs2 with ⟨b, _, hb⟩
    rw [← ha] at hb
    exact absurd hb (by simp)

theorem keysLen_lt {ctx : FieldContext} {m : VariableMap}
    (hnd : (m.map Prod.fst).Nodup) (hval : ∀ p ∈ m, p.1.validIn ctx)
    {s : SourceId} (hs : s.validIn ctx) (hnot : s ∉ m.map Prod.fst) :
    (m.map Prod.fst).length < ctx.numInputs + ctx.numOps := by
  have h1 : (m.map Prod.fst).toFinset.card = (m.map Prod.fst).length :=
    List.toFinset_card_of_nodup hnd
  have h2 : insert s (m.map Prod.fst).toFinset ⊆ validSources ctx := by
    intro t ht
    rcases Finset.mem_insert.mp ht with ht1 | ht1
    · subst ht1
      exact mem_validSources.mpr hs
    · rw [List.mem_toFinset] at ht1
      rcases List.mem_map.mp ht1 with ⟨p, hp, hpt⟩
      subst hpt
      exact mem_validSources.mpr (hval p hp)
  have h3 : (insert s (m.map Prod.fst).toFinset).card =
      (m.map Prod.fst).toFinset.card + 1 :=
    Finset.card_insert_of_not_mem fun hc => hnot (List.mem_toFinset.mp hc)
  have h4 := Finset.card_le_card h2
  rw [card_validSources, h3] at h4
  omega

theorem topWeight_le {ctx : FieldContext} {F0 : List GField} {st : BuildState}
    (hinv : Inv ctx F0 st) : topWeight ctx st ≤ ctx.numOps + 2 := by
  obtain ⟨proc, vmap, stack⟩ := st
  cases stack with
  | nil => simp [topWeight]
  | cons f rest =>
      have hv := hinv.stackValid f (List.mem_cons_self _ _)
      obtain ⟨fs, fo⟩ := f
      show (if (lookupSrc vmap fs).isSome then ctx.numOps + 2
        else rankS fs + 1) ≤ ctx.numOps + 2
      by_cases h : (lookupSrc vmap fs).isSome = true
      · rw [if_pos h]
      · rw [if_neg h]
        cases fs with
        | input i =>
            show 0 + 1 ≤ ctx.numOps + 2
            omega
        | operation j =>
            show j + 1 + 1 ≤ ctx.numOps + 2
            have hj : j < ctx.numOps := hv.1
            omega

theorem measure_decr {ctx : FieldContext} {F0 : List GField} (hwf : ctx.WF)
    {st : BuildState} (hinv : Inv ctx F0 st) (hne : st.stack ≠ []) :
    buildMeasure ctx (buildStep ctx st) < buildMeasure ctx st := by
  obtain ⟨proc, vmap, stack⟩ := st
  cases stack with
  | nil => exact absurd rfl hne
  | cons f rest =>
      by_cases hlk : (lookupSrc vmap f.source).isSome = true
      · have hb' := topWeight_le (inv_step_mapped hinv hlk)
        have hb : topWeight ctx ⟨proc, vmap, f :: rest⟩ = ctx.numOps + 2 := by
          show (if (lookupSrc vmap f.source).isSome then ctx.numOps + 2
            else rankS f.source + 1) = ctx.numOps + 2
          rw [if_pos hlk]
        rw [buildStep_mapped_eq hlk]
        show 2 * ((ctx.numInputs + ctx.numOps - (vmap.map Prod.fst).length) *
            (ctx.numOps + 3) + topWeight ctx ⟨proc, vmap, rest⟩) + rest.length <
          2 * ((ctx.numInputs + ctx.numOps - (vmap.map Prod.fst).length) *
            (ctx.numOps + 3) + topWeight ctx ⟨proc, vmap, f :: rest⟩) +
          (rest.length + 1)
        rw [hb]
        omega
      · have hnone : lookupSrc vmap f.source = none :=
          Option.not_isSome_iff_eq_none.mp hlk
        have hfvalid := hinv.stackValid f (List.mem_cons_self _ _)
        have hnotmem : f.source ∉ vmap.map Prod.fst := by
          intro hmem
          rw [← lookupSrc_isSome_iff] at hmem
          rw [hnone] at hmem
          exact absurd hmem (by simp)
        obtain ⟨fs, fo⟩ := f
        cases fs with
        | input i =>
            have hival : (SourceId.input i).validIn ctx := hfvalid.1
            have hlen : (vmap.map Prod.fst).length < ctx.numInputs + ctx.numOps :=
              keysLen_lt hinv.keysNodup hinv.keysValid hival hnotmem
            have hb' := topWeight_le (inv_step_input hinv rfl hnone)
            have hb : topWeight ctx
                ⟨proc, vmap, (⟨SourceId.input i, fo⟩ : GField) :: rest⟩ = 1 := by
              show (if (lookupSrc vmap (SourceId.input i)).isSome then ctx.numOps + 2
                else rankS (SourceId.input i) + 1) = 1
              rw [hnone]
              rfl
            rw [buildStep_input_eq hnone]
            show 2 * ((ctx.numInputs + ctx.numOps -
                ((vmap ++ [(SourceId.input i, [proc.nextVar])]).map Prod.fst).length) *
                (ctx.numOps + 3) +
                topWeight ctx ⟨⟨proc.nextVar + 1,
                  proc.inputParams ++ [(proc.nextVar, ctx.inputName i)],
                  proc.outputParams, proc.body⟩,
                  vmap ++ [(SourceId.input i, [proc.nextVar])], rest⟩) + rest.length <
              2 * ((ctx.numInputs + ctx.numOps - (vmap.map Prod.fst).length) *
                (ctx.numOps + 3) +
                topWeight ctx ⟨proc, vmap, (⟨SourceId.input i, fo⟩ : GField) :: rest⟩) +
              (rest.length + 1)
            have hKeys : ((vmap ++ [(SourceId.input i, [proc.nextVar])]).map
                Prod.fst).length = (vmap.map Prod.fst).length + 1 := by
              simp
            rw [hKeys, hb]
            have hP : (ctx.numInputs + ctx.numOps - (vmap.map Prod.fst).length) *
                (ctx.numOps + 3) =
              (ctx.numInputs + ctx.numOps - ((vmap.map Prod.fst).length + 1)) *
                (ctx.numOps + 3) + (ctx.numOps + 3) := by
              have h5 : ctx.numInputs + ctx.numOps - (vmap.map Prod.fst).length =
                  (ctx.numInputs + ctx.numOps -
                    ((vmap.map Prod.fst).length + 1)) + 1 := by
                omega
              rw [h5, add_mul, one_mul]
            omega
        | operation j =>
            have hjlt : j < ctx.numOps := hfvalid.1
            cases hmiss : firstMissing vmap (ctx.opInputs j) with
            | some d =>
                rcases firstMissing_eq_some hmiss with ⟨hdmem, hdnone⟩
                have hb : topWeight ctx
                    ⟨proc, vmap, (⟨SourceId.operation j, fo⟩ : GField) :: rest⟩ =
                    j + 2 := by
                  show (if (lookupSrc vmap (SourceId.operation j)).isSome then
                    ctx.numOps + 2 else rankS (SourceId.operation j) + 1) = j + 2
                  rw [hnone]
                  rfl
                have hb' : topWeight ctx
                    ⟨proc, vmap,
                      d :: (⟨SourceId.operation j, fo⟩ : GField) :: rest⟩ ≤ j + 1 := by
                  show (if (lookupSrc vmap d.source).isSome then ctx.numOps + 2
                    else rankS d.source + 1) ≤ j + 1
                  rw [hdnone]
                  show rankS d.source + 1 ≤ j + 1
                  rcases hdsrc : d.source with i2 | k
                  · rw [rankS]
                    omega
                  · rw [rankS]
                    have hb2 := (hwf j hjlt d hdmem).2
                    rw [hdsrc] at hb2
                    rw [SourceId.below] at hb2
                    omega
                rw [buildStep_blocked_eq hnone hmiss]
                show 2 * ((ctx.numInputs + ctx.numOps - (vmap.map Prod.fst).length) *
                    (ctx.numOps + 3) +
                    topWeight ctx ⟨proc, vmap,
                      d :: (⟨SourceId.operation j, fo⟩ : GField) :: rest⟩) +
                    (rest.length + 1 + 1) <
                  2 * ((ctx.numInputs + ctx.numOps - (vmap.map Prod.fst).length) *
                    (ctx.numOps + 3) +
                    topWeight ctx ⟨proc, vmap,
                      (⟨SourceId.operation j, fo⟩ : GField) :: rest⟩) +
                  (rest.length + 1)
                rw [hb]
                omega
            | none =>
                have hval : (SourceId.operation j).validIn ctx := hjlt
                have hlen : (vmap.map Prod.fst).length < ctx.numInputs + ctx.numOps :=
                  keysLen_lt hinv.keysNodup hinv.keysValid hval hnotmem
                have hb : topWeight ctx
                    ⟨proc, vmap, (⟨SourceId.operation j, fo⟩ : GField) :: rest⟩ =
                    j + 2 := by
                  show (if (lookupSrc vmap (SourceId.operation j)).isSome then
                    ctx.numOps + 2 else rankS (SourceId.operation j) + 1) = j + 2
                  rw [hnone]
                  rfl
                have hb' := topWeight_le (inv_step_emit hwf hinv rfl hnone hmiss)
                rw [buildStep_emit_eq hnone hmiss]
                show 2 * ((ctx.numInputs + ctx.numOps -
                    ((vmap ++ [(SourceId.operation j,
                      (List.range (ctx.opFn j).numOutputs).map
                        fun l => proc.nextVar + l)]).map Prod.fst).length) *
                    (ctx.numOps + 3) +
                    topWeight ctx
                      ⟨⟨proc.nextVar + (ctx.opFn j).numOutputs, proc.inputParams,
                          proc.outputParams,
                          proc.body ++ [Instruction.call j
                            ((ctx.opInputs j).map (getFieldVariable vmap))
                            ((List.range (ctx.opFn j).numOutputs).map
                              fun l => proc.nextVar + l)]⟩,
                        vmap ++ [(SourceId.operation j,
                          (List.range (ctx.opFn j).numOutputs).map
                            fun l => proc.nextVar + l)],
                        rest⟩) + rest.length <
                  2 * ((ctx.numInputs + ctx.numOps - (vmap.map Prod.fst).length) *
                    (ctx.numOps + 3) +
                    topWeight ctx ⟨proc, vmap,
                      (⟨SourceId.operation j, fo⟩ : GField) :: rest⟩) +
                  (rest.length + 1)
                have hKeys : ((vmap ++ [(SourceId.operation j,
                    (List.range (ctx.opFn j).numOutputs).map
                      fun l => proc.nextVar + l)]).map Prod.fst).length =
                    (vmap.map Prod.fst).length + 1 := by
                  simp
                rw [hKeys, hb]
                have hP : (ctx.numInputs + ctx.numOps - (vmap.map Prod.fst).length) *
                    (ctx.numOps + 3) =
                  (ctx.numInputs + ctx.numOps - ((vmap.map Prod.fst).length + 1)) *
                    (ctx.numOps + 3) + (ctx.numOps + 3) := by
                  have h5 : ctx.numInputs + ctx.numOps - (vmap.map Prod.fst).length =
                      (ctx.numInputs + ctx.numOps -
                        ((vmap.map Prod.fst).length + 1)) + 1 := by
                    omega
                  rw [h5, add_mul, one_mul]
                omega

/-- Enough fuel, measured by `buildMeasure`, makes the worklist loop finish. -/
theorem loop_of_measure {ctx : FieldContext} {F0 : List GField} (hwf : ctx.WF)
    (hbase : ∀ f ∈ F0, f.valid ctx) :
    ∀ (fuel : Nat) (st : BuildState), Inv ctx F0 st →
    buildMeasure ctx st ≤ fuel → (buildLoop ctx fuel st).isSome = true := by
  intro fuel
  induction fuel with
  | zero =>
      intro st hinv hm
      cases hstack : st.stack with
      | nil => rw [buildLoop, hstack]; rfl
      | cons f rest =>
          exfalso
          rw [buildMeasure, hstack] at hm
          simp only [List.length_cons] at hm
          omega
  | succ fuel ih =>
      intro st hinv hm
      cases hstack : st.stack with
      | nil => rw [buildLoop, hstack]; rfl
      | cons f rest =>
          rw [buildLoop, hstack]
          refine ih (buildStep ctx st) (inv_step hwf hbase hinv) ?_
          have := measure_decr hwf hinv (by rw [hstack]; simp)
          omega

/-! ## The shape of the finished procedure -/

theorem foldl_destruct_eq (outs : List Nat) :
    ∀ (vs : List Nat) (p : Procedure),
    vs.foldl (fun p v => if v ∈ outs then p else addDestruct p v) p =
      ⟨p.nextVar, p.inputParams, p.outputParams,
        p.body ++ (vs.filter fun v => decide (v ∉ outs)).map Instruction.destruct⟩ := by
  intro vs
  induction vs with
  | nil =>
      intro p
      simp
  | cons v vs ih =>
      intro p
      rw [List.foldl_cons]
      by_cases hv : v ∈ outs
      · rw [if_pos hv, ih]
        have : (List.filter (fun v => decide (v ∉ outs)) (v :: vs)) =
            List.filter (fun v => decide (v ∉ outs)) vs := by
          rw [List.filter_cons]
          simp [hv]
        rw [this]
      · rw [if_neg hv, ih]
        have : (List.filter (fun v => decide (v ∉ outs)) (v :: vs)) =
            v :: List.filter (fun v => decide (v ∉ outs)) vs := by
          rw [List.filter_cons]
          simp [hv]
        rw [this]
        simp [addDestruct, List.append_assoc]

theorem addDestructs_eq (fields : List GField) (proc : Procedure)
    (vmap : VariableMap) :
    addDestructs fields proc vmap =
      ⟨proc.nextVar, proc.inputParams, proc.outputParams,
        proc.body ++ ((vmap.flatMap Prod.snd).filter fun v =>
          decide (v ∉ fields.map (getFieldVariable vmap))).map Instruction.destruct⟩ := by
  rw [addDestructs]
  exact foldl_destruct_eq _ _ _

theorem foldl_outparams_eq (vmap : VariableMap) :
    ∀ (fs : List GField) (p : Procedure),
    fs.foldl (fun p f => addOutputParameter p (getFieldVariable vmap f)) p =
      ⟨p.nextVar, p.inputParams, p.outputParams ++ fs.map (getFieldVariable vmap),
        p.body⟩ := by
  intro fs
  induction fs with
  | nil =>
      intro p
      simp
  | cons f fs ih =>
      intro p
      rw [List.foldl_cons, ih]
      simp [addOutputParameter, List.append_assoc]

/-- A successful `buildProcedure` run, decomposed: the worklist loop reached
a final state, and the procedure is that state's procedure followed by the
destructs, the return, and one output parameter per requested field. -/
theorem buildProcedure_some {ctx : FieldContext} {fuel : Nat}
    {fields : List GField} {proc : Procedure} {vmap : VariableMap}
    (h : buildProcedure ctx fuel fields = some (proc, vmap)) :
    ∃ st', buildLoop ctx fuel (initState fields) = some st' ∧ st'.vmap = vmap ∧
      proc = ⟨st'.proc.nextVar, st'.proc.inputParams,
        st'.proc.outputParams ++ fields.map (getFieldVariable vmap),
        st'.proc.body ++
          ((vmap.flatMap Prod.snd).filter fun v =>
            decide (v ∉ fields.map (getFieldVariable vmap))).map Instruction.destruct
          ++ [Instruction.ret]⟩ := by
  rw [buildProcedure] at h
  cases hloop : buildLoop ctx fuel (initState fields) with
  | none => rw [hloop] at h; exact absurd h (by simp)
  | some st' =>
      rw [hloop] at h
      injection h with h1
      rw [Prod.mk.injEq] at h1
      refine ⟨st', rfl, h1.2, ?_⟩
      rw [← h1.1, ← h1.2]
      rw [addDestructs_eq, foldl_outparams_eq]
      rfl

/-- No destruct instruction contributes to `callOps` or `callOutputs`, and a
body of destructs passes validation trivially. -/
theorem validateBody_destructs (avail : List Nat) (vs : List Nat) :
    validateBody avail (vs.map Instruction.destruct) = true := by
  induction vs with
  | nil => rfl
  | cons v vs ih => exact ih

theorem callOps_destructs (vs : List Nat) :
    callOps (vs.map Instruction.destruct) = [] := by
  induction vs with
  | nil => rfl
  | cons v vs ih => exact ih

theorem callOutputs_destructs (vs : List Nat) :
    callOutputs (vs.map Instruction.destruct) = [] := by
  induction vs with
  | nil => rfl
  | cons v vs ih => exact ih

/-! ## Final-state consequences of the invariant -/

theorem final_keys_iff {ctx : FieldContext} {F0 : List GField} {st' : BuildState}
    (hinv : Inv ctx F0 st') (hstack : st'.stack = []) :
    ∀ s, s ∈ st'.vmap.map Prod.fst ↔ s ∈ reachFields ctx F0 := by
  intro s
  constructor
  · intro hs
    rcases List.mem_map.mp hs with ⟨p, hp, hps⟩
    subst hps
    exact hinv.keysReach p hp
  · intro hs
    rcases hinv.coverage s hs with hk | ⟨g, hg, _⟩
    · exact hk
    · rw [hstack] at hg
      exact absurd hg (by simp)

theorem inputEntries_length {ctx : FieldContext} {m : VariableMap} :
    (inputEntries ctx m).length =
      ((m.map Prod.fst).filter fun s => isInputS s).length := by
  induction m with
  | nil => rfl
  | cons p rest ih =>
      obtain ⟨s, vs⟩ := p
      cases s with
      | input i =>
          show (inputEntries ctx ((SourceId.input i, vs) :: rest)).length = _
          rw [inputEntries, List.filterMap_cons]
          simp only [List.map_cons, List.filter_cons]
          rw [← inputEntries]
          simp [isInputS, ih]
      | operation j =>
          show (inputEntries ctx ((SourceId.operation j, vs) :: rest)).length = _
          rw [inputEntries, List.filterMap_cons]
          simp only [List.map_cons, List.filter_cons]
          rw [← inputEntries]
          simp [isInputS, ih]

theorem length_filter_eq_card {l : List SourceId} (hnd : l.Nodup)
    {t : Finset SourceId} (hiff : ∀ s, s ∈ l ↔ s ∈ t) (p : SourceId → Bool) :
    (l.filter fun s => p s).length = (t.filter fun s => p s = true).card := by
  have h1 : (l.filter fun s => p s).Nodup := hnd.filter _
  rw [← List.toFinset_card_of_nodup h1]
  congr 1
  ext s
  simp only [List.mem_toFinset, List.mem_filter, Finset.mem_filter]
  rw [hiff s]

theorem final_callOps_iff {ctx : FieldContext} {F0 : List GField}
    {st' : BuildState} (hinv : Inv ctx F0 st') :
    ∀ j, j ∈ callOps st'.proc.body ↔
      (lookupSrc st'.vmap (SourceId.operation j)).isSome = true := by
  intro j
  constructor
  · intro hj
    rcases mem_callOps_iff.mp hj with ⟨ins, outs, hcall⟩
    rcases hinv.callInv j ins outs hcall with ⟨_, _, hlook, _⟩
    rw [hlook]
    rfl
  · intro hj
    rcases Option.isSome_iff_exists.mp hj with ⟨vs, hvs⟩
    rcases hinv.opEntry j vs hvs with ⟨_, hcall⟩
    exact mem_callOps_iff.mpr ⟨_, vs, hcall⟩

/-! ## Input gathering invokes each input at most once -/

theorem gatherStep_inv {ctx : FieldContext} {vmap : VariableMap}
    {st : GatherState} (h1 : ∀ i, st.log.count i ≤ 1)
    (h2 : ∀ i ∈ st.log, getFieldVariable vmap ⟨SourceId.input i, 0⟩ ∈ st.computed) :
    (∀ i, (gatherStep ctx vmap st).log.count i ≤ 1) ∧
    (∀ i ∈ (gatherStep ctx vmap st).log,
      getFieldVariable vmap ⟨SourceId.input i, 0⟩ ∈
        (gatherStep ctx vmap st).computed) := by
  obtain ⟨computed, binds, log, stack⟩ := st
  have h1x : ∀ i2, log.count i2 ≤ 1 := h1
  have h2x : ∀ i2 ∈ log,
      getFieldVariable vmap ⟨SourceId.input i2, 0⟩ ∈ computed := h2
  cases stack with
  | nil => exact ⟨h1, h2⟩
  | cons f rest =>
      obtain ⟨fs, fo⟩ := f
      cases fs with
      | input i =>
          by_cases hv : getFieldVariable vmap ⟨SourceId.input i, fo⟩ ∈ computed
          · have hstep : gatherStep ctx vmap
                ⟨computed, binds, log, ⟨SourceId.input i, fo⟩ :: rest⟩ =
                ⟨computed, binds, log, rest⟩ := by
              show (if getFieldVariable vmap ⟨SourceId.input i, fo⟩ ∈ computed then
                (⟨computed, binds, log, rest⟩ : GatherState)
                else ⟨getFieldVariable vmap ⟨SourceId.input i, fo⟩ :: computed,
                  binds ++ [fun e => ctx.inputData i e], log ++ [i], rest⟩) =
                ⟨computed, binds, log, rest⟩
              rw [if_pos hv]
            rw [hstep]
            exact ⟨h1, h2⟩
          · have hstep : gatherStep ctx vmap
                ⟨computed, binds, log, ⟨SourceId.input i, fo⟩ :: rest⟩ =
                ⟨getFieldVariable vmap ⟨SourceId.input i, fo⟩ :: computed,
                  binds ++ [fun e => ctx.inputData i e], log ++ [i], rest⟩ := by
              show (if getFieldVariable vmap ⟨SourceId.input i, fo⟩ ∈ computed then
                (⟨computed, binds, log, rest⟩ : GatherState)
                else ⟨getFieldVariable vmap ⟨SourceId.input i, fo⟩ :: computed,
                  binds ++ [fun e => ctx.inputData i e], log ++ [i], rest⟩) = _
              rw [if_neg hv]
            rw [hstep]
            have hnotlog : i ∉ log := by
              intro hmem
              exact hv (h2x i hmem)
            constructor
            · intro i2
              rw [List.count_append]
              by_cases hi2 : i2 = i
              · subst hi2
                have hz : log.count i2 = 0 := by
                  rw [List.count_eq_zero]
                  exact hnotlog
                rw [hz]
                simp
              · have : List.count i2 [i] = 0 := by
                  rw [List.count_eq_zero]
                  simp [hi2]
                rw [this]
                have := h1x i2
                omega
            · intro i2 hi2
              rcases List.mem_append.mp hi2 with hm | hm
              · exact List.mem_cons_of_mem _ (h2x i2 hm)
              · simp only [List.mem_singleton] at hm
                subst hm
                exact List.mem_cons_self _ _
      | operation j =>
          have hstep : gatherStep ctx vmap
              ⟨computed, binds, log, ⟨SourceId.operation j, fo⟩ :: rest⟩ =
              ⟨computed, binds, log, (ctx.opInputs j).reverse ++ rest⟩ := rfl
          rw [hstep]
          exact ⟨h1, h2⟩

theorem gatherLoop_inv {ctx : FieldContext} {vmap : VariableMap} :
    ∀ (fuel : Nat) (st : GatherState), (∀ i, st.log.count i ≤ 1) →
    (∀ i ∈ st.log, getFieldVariable vmap ⟨SourceId.input i, 0⟩ ∈ st.computed) →
    ∀ st', gatherLoop ctx vmap fuel st = some st' → ∀ i, st'.log.count i ≤ 1 := by
  intro fuel
  induction fuel with
  | zero =>
      intro st h1 h2 st' h
      cases hstack : st.stack with
      | nil =>
          rw [gatherLoop, hstack] at h
          injection h with he
          subst he
          exact h1
      | cons f rest =>
          rw [gatherLoop, hstack] at h
          exact absurd h (by simp)
  | succ fuel ih =>
      intro st h1 h2 st' h
      cases hstack : st.stack with
      | nil =>
          rw [gatherLoop, hstack] at h
          injection h with he
          subst he
          exact h1
      | cons f rest =>
          rw [gatherLoop, hstack] at h
          rcases gatherStep_inv h1 h2 with ⟨g1, g2⟩
          exact ih (gatherStep ctx vmap st) g1 g2 st' h

/-- Direct computation of the field value on the `ctxSub` example. -/
theorem evalField_ctxSub_eq : evalField ctxSub 0 fldSub = 1 := by
  have h : evalOp ctxSub 0 0 = [1] := by
    rw [evalOp]
    rfl
  show (evalOp ctxSub 0 0).getD 0 0 = 1
  rw [h]
  rfl

/-! ## Claim theorems -/

/-- C7: a call to `evaluate_fields` whose `fields` and `outputs` lengths
differ fails the contract check (`BLI_assert` at field.cc line 254, the first
statement of the function) before any output buffer is written: the result is
`lengthMismatch` and no buffers are produced. -/
theorem evaluateFields_length_mismatch (ctx : FieldContext) (fuel : Nat)
    (fields : List GField) (mask : Mask) (outputs : List Buffer)
    (h : fields.length ≠ outputs.length) :
    evaluateFields ctx fuel fields mask outputs = EvalResult.lengthMismatch := by
  rw [evaluateFields, if_neg h]

theorem evaluateFields_length_mismatch_witness :
    [fldSub].length ≠ ([] : List Buffer).length ∧
    evaluateFields ctxSub 32 [fldSub] [0] [] = EvalResult.lengthMismatch :=
  ⟨by decide,
    evaluateFields_length_mismatch ctxSub 32 [fldSub] [0] [] (by decide)⟩

/-- C1 (code bug): on the two-input operation `sub(A,B)` with `A = 1` and
`B = 0` over mask `{0}`, the buffer receives `-1 = B - A` although the
field's value is `1 = A - B`.  The cause: `add_unique_variables` declares the
input parameters left to right (the first missing input is pushed), while
`gather_inputs` pushes an operation's inputs in order and pops them in
reverse, so the positional parameter bindings arrive in the opposite order —
exactly the suspicion recorded in the comment above `gather_inputs`
(field.cc lines 182–185). -/
theorem evaluateFields_binding_order_bug :
    (evaluateFields ctxSub 32 [fldSub] [0] [fun _ => 99]).valueAt 0 0 =
      some (-1) ∧
    evalField ctxSub 0 fldSub = 1 := ⟨rfl, evalField_ctxSub_eq⟩

/-- C9 (code bug): `evaluate_constant_field` is by definition the singleton
`evaluate_fields` call over mask `{0}` with a one-element span (field.cc
lines 281–285) — the equivalence half of the claim holds — but the value it
writes is not the element-0 result of the field whenever the binding-order
bug of `gather_inputs` strikes: for `sub(A,B)` it stores `-1` instead of
`1`. -/
theorem evaluateConstantField_bug :
    evaluateConstantField ctxSub 32 fldSub (fun _ => 7) =
      evaluateFields ctxSub 32 [fldSub] [0] [fun _ => 7] ∧
    (evaluateConstantField ctxSub 32 fldSub (fun _ => 7)).valueAt 0 0 =
      some (-1) ∧
    evalField ctxSub 0 fldSub = 1 := ⟨rfl, rfl, evalField_ctxSub_eq⟩

/-- C4 (counterexample): requesting the bare input `A` together with
`double(A)` invokes `A`'s data production twice in one `evaluate_fields`
call — once in the direct materialization loop (field.cc lines 262–271) and
once in `gather_inputs` — so "at most once per evaluation call" is false for
the call as a whole. -/
theorem evaluateFields_getData_twice :
    (evaluateFields ctxDup 32 fieldsDup [0]
      [fun _ => 0, fun _ => 0]).logOf = some [0, 0] ∧
    ((evaluateFields ctxDup 32 fieldsDup [0]
      [fun _ => 0, fun _ => 0]).logOf.getD []).count 0 = 2 := ⟨rfl, rfl⟩

/-- C4 (amended): within `gather_inputs` the guarantee does hold — every
input's data production is invoked at most once per gather, because a
variable already in `computed_inputs` is never bound again (field.cc lines
203–208).  The direct materialization of bare-input requests adds one further
invocation per such request, which is what the counterexample exhibits. -/
theorem gatherInputs_getData_at_most_once {ctx : FieldContext}
    {vmap : VariableMap} {fuel : Nat} {fields : List GField} {st' : GatherState}
    (h : gatherInputs ctx vmap fuel fields = some st') :
    ∀ i, st'.log.count i ≤ 1 := by
  rw [gatherInputs] at h
  refine gatherLoop_inv fuel ⟨[], [], [], fields.reverse⟩ ?_ ?_ st' h
  · intro i
    simp
  · intro i hi
    exact absurd hi (by simp)

theorem gatherInputs_getData_at_most_once_witness :
    gatherInputs ctxDup [] 16 [⟨SourceId.input 0, 0⟩, ⟨SourceId.input 0, 0⟩] =
      some gatherDup ∧
    gatherDup.log.count 0 ≤ 1 :=
  ⟨rfl, @gatherInputs_getData_at_most_once ctxDup [] 16
    [⟨SourceId.input 0, 0⟩, ⟨SourceId.input 0, 0⟩] gatherDup rfl 0⟩


/-- C5: every procedure built by `build_procedure` from a well-formed
(finite, acyclic) field graph passes the structural validation modelled from
the spec: each variable referenced by a call was produced by a strictly
earlier instruction or is a parameter, so the `BLI_assert(procedure.validate())`
at field.cc line 179 never fails. -/
theorem buildProcedure_validates (ctx : FieldContext) (hwf : ctx.WF)
    (fields : List GField) (hbase : ∀ f ∈ fields, f.valid ctx) (fuel : Nat)
    (proc : Procedure) (vmap : VariableMap)
    (h : buildProcedure ctx fuel fields = some (proc, vmap)) :
    proc.validate = true := by
  rcases buildProcedure_some h with ⟨st', hloop, hvm, hproc⟩
  subst hvm
  rcases inv_loop hwf hbase fuel (initState fields) (inv_init hbase) st' hloop
    with ⟨hinv, _⟩
  rw [hproc, Procedure.validate]
  show validateBody (st'.proc.inputParams.map Prod.fst)
    (st'.proc.body ++
      ((st'.vmap.flatMap Prod.snd).filter fun v =>
        decide (v ∉ fields.map (getFieldVariable st'.vmap))).map Instruction.destruct
      ++ [Instruction.ret]) = true
  rw [validateBody_append, validateBody_append, Bool.and_eq_true, Bool.and_eq_true]
  exact ⟨⟨hinv.validBody, validateBody_destructs _ _⟩, rfl⟩

theorem buildProcedure_validates_witness :
    ctxPair.WF ∧ (∀ f ∈ fieldsPair, f.valid ctxPair) ∧
    buildProcedure ctxPair 32 fieldsPair = some (builtPair.1, builtPair.2) ∧
    builtPair.1.validate = true :=
  ⟨by decide, by decide, rfl,
    buildProcedure_validates ctxPair (by decide) fieldsPair (by decide) 32
      builtPair.1 builtPair.2 rfl⟩

/-- C6: the procedure-building worklist terminates on every well-formed
(finite, acyclic) graph — some fuel makes the loop finish with an empty
stack — and the step mechanism is as claimed: a blocked operation is left on
the stack while its first missing dependency is pushed; an already-mapped
source is popped without any processing; and whenever the top of the stack is
removed, its source has a map entry afterwards, so a blocked operation is
re-examined only after the pushed dependency has resolved. -/
theorem worklist_terminates (ctx : FieldContext) (hwf : ctx.WF)
    (fields : List GField) (hbase : ∀ f ∈ fields, f.valid ctx) :
    (∃ fuel st', buildLoop ctx fuel (initState fields) = some st' ∧
      st'.stack = []) ∧
    (∀ (proc : Procedure) (vmap : VariableMap) (f : GField)
      (rest : List GField) (j : Nat) (d : GField),
      f.source = SourceId.operation j → lookupSrc vmap f.source = none →
      firstMissing vmap (ctx.opInputs j) = some d →
      buildStep ctx ⟨proc, vmap, f :: rest⟩ = ⟨proc, vmap, d :: f :: rest⟩) ∧
    (∀ (proc : Procedure) (vmap : VariableMap) (f : GField) (rest : List GField),
      (lookupSrc vmap f.source).isSome = true →
      buildStep ctx ⟨proc, vmap, f :: rest⟩ = ⟨proc, vmap, rest⟩) ∧
    (∀ (proc : Procedure) (vmap : VariableMap) (f : GField) (rest : List GField),
      (buildStep ctx ⟨proc, vmap, f :: rest⟩).stack = rest →
      (lookupSrc (buildStep ctx ⟨proc, vmap, f :: rest⟩).vmap f.source).isSome
        = true) := by
  refine ⟨?_, ?_, ?_, ?_⟩
  · have hin : Inv ctx fields (initState fields) := inv_init hbase
    have hs := loop_of_measure hwf hbase (buildMeasure ctx (initState fields))
      (initState fields) hin (le_refl _)
    rcases Option.isSome_iff_exists.mp hs with ⟨st', hst'⟩
    rcases inv_loop hwf hbase _ _ hin st' hst' with ⟨_, hstk⟩
    exact ⟨_, st', hst', hstk⟩
  · intro proc vmap f rest j d hj hnone hmiss
    obtain ⟨fs, fo⟩ := f
    have hfs : fs = SourceId.operation j := hj
    subst hfs
    exact buildStep_blocked_eq hnone hmiss
  · intro proc vmap f rest h
    exact buildStep_mapped_eq h
  · intro proc vmap f rest h
    exact buildStep_popped_mapped h

theorem worklist_terminates_witness :
    ctxPair.WF ∧ (∀ f ∈ fieldsPair, f.valid ctxPair) ∧
    (∃ fuel st', buildLoop ctxPair fuel (initState fieldsPair) = some st' ∧
      st'.stack = []) :=
  ⟨by decide, by decide,
    (worklist_terminates ctxPair (by decide) fieldsPair (by decide)).1⟩

/-- C2: the dedup law.  After a successful build, the unique-variable map has
exactly the reachable sources as keys; the procedure declares exactly one
input parameter per distinct reachable `FieldInput` (their count equals the
number of reachable inputs); the call operations are duplicate-free and are
exactly the reachable `FieldOperation`s — one call per distinct operation,
regardless of how many requested fields share a source; and each call's
inputs name exactly the variables the map records for its dependencies. -/
theorem buildProcedure_dedup (ctx : FieldContext) (hwf : ctx.WF)
    (fields : List GField) (hbase : ∀ f ∈ fields, f.valid ctx) (fuel : Nat)
    (proc : Procedure) (vmap : VariableMap)
    (h : buildProcedure ctx fuel fields = some (proc, vmap)) :
    (∀ s, s ∈ vmap.map Prod.fst ↔ s ∈ reachFields ctx fields) ∧
    proc.inputParams.length =
      ((reachFields ctx fields).filter fun s => isInputS s = true).card ∧
    (callOps proc.body).Nodup ∧
    (∀ j, j ∈ callOps proc.body ↔ SourceId.operation j ∈ reachFields ctx fields) ∧
    (∀ j ins outs, Instruction.call j ins outs ∈ proc.body →
      ins = (ctx.opInputs j).map (getFieldVariable vmap)) := by
  rcases buildProcedure_some h with ⟨st', hloop, hvm, hproc⟩
  subst hvm
  rcases inv_loop hwf hbase fuel (initState fields) (inv_init hbase) st' hloop
    with ⟨hinv, hstack⟩
  have hkeys := final_keys_iff hinv hstack
  have hbody : proc.body = st'.proc.body ++
      ((st'.vmap.flatMap Prod.snd).filter fun v =>
        decide (v ∉ fields.map (getFieldVariable st'.vmap))).map Instruction.destruct
      ++ [Instruction.ret] := by
    rw [hproc]
  have hip : proc.inputParams = st'.proc.inputParams := by
    rw [hproc]
  have hcallsB : callOps proc.body = callOps st'.proc.body := by
    rw [hbody, callOps_append, callOps_append, callOps_destructs]
    show callOps st'.proc.body ++ [] ++ callOps [Instruction.ret] = _
    simp [callOps]
  refine ⟨hkeys, ?_, ?_, ?_, ?_⟩
  · rw [hip, hinv.inputEntriesEq, inputEntries_length]
    exact length_filter_eq_card hinv.keysNodup hkeys isInputS
  · rw [hcallsB]
    exact hinv.callOpsNodup
  · intro j
    rw [hcallsB, final_callOps_iff hinv, lookupSrc_isSome_iff]
    exact hkeys _
  · intro j ins outs hmem
    rw [hbody] at hmem
    rcases List.mem_append.mp hmem with hm | hm
    · rcases List.mem_append.mp hm with hm1 | hm1
      · exact (hinv.callInv j ins outs hm1).2.2.2
      · exfalso
        rcases List.mem_map.mp hm1 with ⟨v, _, hveq⟩
        exact absurd hveq (by simp)
    · simp only [List.mem_singleton] at hm
      exact absurd hm (by simp)

theorem buildProcedure_dedup_witness :
    ctxPair.WF ∧ (∀ f ∈ fieldsPair, f.valid ctxPair) ∧
    buildProcedure ctxPair 32 fieldsPair = some (builtPair.1, builtPair.2) ∧
    ((∀ s, s ∈ builtPair.2.map Prod.fst ↔ s ∈ reachFields ctxPair fieldsPair) ∧
      builtPair.1.inputParams.length =
        ((reachFields ctxPair fieldsPair).filter fun s => isInputS s = true).card ∧
      (callOps builtPair.1.body).Nodup ∧
      (∀ j, j ∈ callOps builtPair.1.body ↔
        SourceId.operation j ∈ reachFields ctxPair fieldsPair) ∧
      (∀ j ins outs, Instruction.call j ins outs ∈ builtPair.1.body →
        ins = (ctxPair.opInputs j).map (getFieldVariable builtPair.2))) :=
  ⟨by decide, by decide, rfl,
    buildProcedure_dedup ctxPair (by decide) fieldsPair (by decide) 32
      builtPair.1 builtPair.2 rfl⟩

/-- C10: the map entry of each operation is exactly the output-variable list
of its (unique, by the duplicate-free call list) call, in emission order,
with length equal to the operation's declared output arity; resolving a field
rooted at that operation yields the entry's variable at the field's source
output index, and resolving a field rooted at an input yields the single
recorded parameter variable. -/
theorem buildProcedure_map_entries (ctx : FieldContext) (hwf : ctx.WF)
    (fields : List GField) (hbase : ∀ f ∈ fields, f.valid ctx) (fuel : Nat)
    (proc : Procedure) (vmap : VariableMap)
    (h : buildProcedure ctx fuel fields = some (proc, vmap)) :
    (callOps proc.body).Nodup ∧
    (∀ j vs, lookupSrc vmap (SourceId.operation j) = some vs →
      vs.length = (ctx.opFn j).numOutputs ∧
      (∃ ins, Instruction.call j ins vs ∈ proc.body) ∧
      (∀ f : GField, f.source = SourceId.operation j →
        getFieldVariable vmap f = vs.getD f.outIndex 0)) ∧
    (∀ i vs, lookupSrc vmap (SourceId.input i) = some vs →
      ∃ v, vs = [v] ∧ ∀ f : GField, f.source = SourceId.input i →
        getFieldVariable vmap f = v) := by
  rcases buildProcedure_some h with ⟨st', hloop, hvm, hproc⟩
  subst hvm
  rcases inv_loop hwf hbase fuel (initState fields) (inv_init hbase) st' hloop
    with ⟨hinv, _⟩
  have hbody : proc.body = st'.proc.body ++
      ((st'.vmap.flatMap Prod.snd).filter fun v =>
        decide (v ∉ fields.map (getFieldVariable st'.vmap))).map Instruction.destruct
      ++ [Instruction.ret] := by
    rw [hproc]
  have hcallsB : callOps proc.body = callOps st'.proc.body := by
    rw [hbody, callOps_append, callOps_append, callOps_destructs]
    show callOps st'.proc.body ++ [] ++ callOps [Instruction.ret] = _
    simp [callOps]
  refine ⟨?_, ?_, ?_⟩
  · rw [hcallsB]
    exact hinv.callOpsNodup
  · intro j vs hvs
    rcases hinv.opEntry j vs hvs with ⟨_, hcall⟩
    rcases hinv.callInv j _ vs hcall with ⟨_, hlen, _, _⟩
    refine ⟨hlen, ⟨(ctx.opInputs j).map (getFieldVariable st'.vmap), ?_⟩, ?_⟩
    · rw [hbody]
      exact List.mem_append_left _ (List.mem_append_left _ hcall)
    · intro f hsrc
      obtain ⟨fs, fo⟩ := f
      have hfs : fs = SourceId.operation j := hsrc
      subst hfs
      show ((lookupSrc st'.vmap (SourceId.operation j)).getD []).getD fo 0 =
        vs.getD fo 0
      rw [hvs]
      rfl
  · intro i vs hvs
    rcases hinv.inputEntry i vs hvs with ⟨v, hv⟩
    subst hv
    refine ⟨v, rfl, ?_⟩
    intro f hsrc
    obtain ⟨fs, fo⟩ := f
    have hfs : fs = SourceId.input i := hsrc
    subst hfs
    show (((lookupSrc st'.vmap (SourceId.input i)).getD []).headD 0) = v
    rw [hvs]
    rfl

theorem buildProcedure_map_entries_witness :
    ctxPair.WF ∧ (∀ f ∈ fieldsPair, f.valid ctxPair) ∧
    buildProcedure ctxPair 32 fieldsPair = some (builtPair.1, builtPair.2) ∧
    ((callOps builtPair.1.body).Nodup ∧
      (∀ j vs, lookupSrc builtPair.2 (SourceId.operation j) = some vs →
        vs.length = (ctxPair.opFn j).numOutputs ∧
        (∃ ins, Instruction.call j ins vs ∈ builtPair.1.body) ∧
        (∀ f : GField, f.source = SourceId.operation j →
          getFieldVariable builtPair.2 f = vs.getD f.outIndex 0)) ∧
      (∀ i vs, lookupSrc builtPair.2 (SourceId.input i) = some vs →
        ∃ v, vs = [v] ∧ ∀ f : GField, f.source = SourceId.input i →
          getFieldVariable builtPair.2 f = v)) :=
  ⟨by decide, by decide, rfl,
    buildProcedure_map_entries ctxPair (by decide) fieldsPair (by decide) 32
      builtPair.1 builtPair.2 rfl⟩


/-! ## Counting destructs -/

theorem count_map_destruct (v : Nat) : ∀ l : List Nat,
    (l.map Instruction.destruct).count (Instruction.destruct v) = l.count v := by
  intro l
  induction l with
  | nil => rfl
  | cons w l ih =>
      rw [List.map_cons, List.count_cons, List.count_cons, ih]
      by_cases hw : w = v
      · subst hw
        simp
      · have h1 : (Instruction.destruct w == Instruction.destruct v) = false := by
          rw [beq_eq_false_iff_ne]
          intro hcon
          injection hcon with h3
          exact hw h3
        have h2 : (w == v) = false := by
          rw [beq_eq_false_iff_ne]
          exact hw
        rw [h1, h2]

theorem count_filter_of_pos {p : Nat → Bool} {v : Nat} (hp : p v = true) :
    ∀ l : List Nat, (l.filter p).count v = l.count v := by
  intro l
  induction l with
  | nil => rfl
  | cons w l ih =>
      rw [List.filter_cons]
      by_cases hw : p w = true
      · rw [if_pos hw, List.count_cons, List.count_cons, ih]
      · rw [if_neg hw, List.count_cons, ih]
        have h2 : (w == v) = false := by
          rw [beq_eq_false_iff_ne]
          intro hcon
          subst hcon
          exact hw hp
        rw [h2]
        simp

theorem count_filter_zero_of_neg {p : Nat → Bool} {v : Nat} (hp : p v = false)
    (l : List Nat) : (l.filter p).count v = 0 := by
  rw [List.count_eq_zero]
  intro hmem
  rcases List.mem_filter.mp hmem with ⟨_, hpv⟩
  rw [hp] at hpv
  exact absurd hpv (by simp)

theorem ret_get_position {A : List Instruction} (hA : Instruction.ret ∉ A) :
    ∀ r, (A ++ [Instruction.ret]).get? r = some Instruction.ret → r = A.length := by
  intro r hr
  by_cases h : r < A.length
  · rw [List.get?_append h] at hr
    exact absurd (List.get?_mem hr) hA
  · push_neg at h
    rw [List.get?_append_right h] at hr
    rcases hd : r - A.length with _ | k
    · omega
    · rw [hd] at hr
      simp at hr

theorem destruct_get_lt {A : List Instruction} (hd : ∀ v,
      Instruction.destruct v ∉ ([Instruction.ret] : List Instruction)) :
    ∀ k v, (A ++ [Instruction.ret]).get? k = some (Instruction.destruct v) →
      k < A.length := by
  intro k v hk
  by_cases h : k < A.length
  · exact h
  · push_neg at h
    rw [List.get?_append_right h] at hk
    exact absurd (List.get?_mem hk) (hd v)

/-- C3: destruct coverage.  Every variable recorded in the unique-variable
map is referenced by exactly one of the two release mechanisms: a variable
resolved for a requested field appears among the output parameters and is
never destructed; every other variable receives exactly one destruct
instruction; and every destruct instruction sits strictly before the
procedure's return.  (The hypothesis that no requested field is a bare input
mirrors the `BLI_assert` at field.cc line 146; the evaluator guarantees it.) -/
theorem buildProcedure_destruct_coverage (ctx : FieldContext) (hwf : ctx.WF)
    (fields : List GField) (hbase : ∀ f ∈ fields, f.valid ctx)
    (hni : ∀ f ∈ fields, f.isInput = false) (fuel : Nat) (proc : Procedure)
    (vmap : VariableMap) (h : buildProcedure ctx fuel fields = some (proc, vmap)) :
    (∀ v ∈ vmap.flatMap Prod.snd,
      (v ∈ proc.outputParams ∧ proc.body.count (Instruction.destruct v) = 0) ∨
      (v ∉ proc.outputParams ∧ proc.body.count (Instruction.destruct v) = 1)) ∧
    (∀ k v, proc.body.get? k = some (Instruction.destruct v) →
      ∀ r, proc.body.get? r = some Instruction.ret → k < r) := by
  rcases buildProcedure_some h with ⟨st', hloop, hvm, hproc⟩
  subst hvm
  rcases inv_loop hwf hbase fuel (initState fields) (inv_init hbase) st' hloop
    with ⟨hinv, _⟩
  have hbody : proc.body = st'.proc.body ++
      ((st'.vmap.flatMap Prod.snd).filter fun v =>
        decide (v ∉ fields.map (getFieldVariable st'.vmap))).map Instruction.destruct
      ++ [Instruction.ret] := by
    rw [hproc]
  have houtp : proc.outputParams = fields.map (getFieldVariable st'.vmap) := by
    rw [hproc]
    show st'.proc.outputParams ++ fields.map (getFieldVariable st'.vmap) = _
    rw [hinv.outParamsNil]
    rfl
  have hcountB : ∀ v, st'.proc.body.count (Instruction.destruct v) = 0 := by
    intro v
    rw [List.count_eq_zero]
    intro hmem
    rcases hinv.bodyCalls _ hmem with ⟨j, ins, outs, heq⟩
    exact absurd heq (by simp)
  have hcountR : ∀ v,
      ([Instruction.ret] : List Instruction).count (Instruction.destruct v) = 0 := by
    intro v
    rw [List.count_eq_zero]
    simp
  constructor
  · intro v hv
    rw [hbody, List.count_append, List.count_append, hcountB, hcountR,
      count_map_destruct, houtp]
    by_cases hvout : v ∈ fields.map (getFieldVariable st'.vmap)
    · left
      refine ⟨hvout, ?_⟩
      rw [count_filter_zero_of_neg]
      rw [decide_eq_false_iff_not]
      intro hcon
      exact hcon hvout
    · right
      refine ⟨hvout, ?_⟩
      rw [count_filter_of_pos (by rw [decide_eq_true_iff]; exact hvout)]
      rw [List.count_eq_one_of_mem hinv.flatNodup hv]
  · intro k v hk r hr
    have hretnot : Instruction.ret ∉ st'.proc.body ++
        ((st'.vmap.flatMap Prod.snd).filter fun v =>
          decide (v ∉ fields.map (getFieldVariable st'.vmap))).map
          Instruction.destruct := by
      intro hmem
      rcases List.mem_append.mp hmem with hm | hm
      · rcases hinv.bodyCalls _ hm with ⟨j, ins, outs, heq⟩
        exact absurd heq (by simp)
      · rcases List.mem_map.mp hm with ⟨w, _, hweq⟩
        exact absurd hweq (by simp)
    rw [hbody] at hk hr
    have hrpos := ret_get_position hretnot r hr
    have hkpos := destruct_get_lt (by intro w; simp) k v hk
    omega


/-! ## Properties of remove_and_reorder and the splitting loop -/

theorem dropLast_cons_ne {α : Type} (x : α) {l : List α} (h : l ≠ []) :
    (x :: l).dropLast = x :: l.dropLast := by
  cases l with
  | nil => exact absurd rfl h
  | cons y ys => rfl

theorem perm_getLast? {α : Type} {m : List α} {a : α}
    (h : m.getLast? = some a) : (a :: m.dropLast).Perm m := by
  have hne : m ≠ [] := by
    intro he
    rw [he] at h
    exact absurd h (by simp)
  have ha : a = m.getLast hne := by
    rw [List.getLast?_eq_getLast m hne] at h
    injection h with h1
    exact h1.symm
  subst ha
  have hp : (m.getLast hne :: m.dropLast).Perm (m.dropLast ++ [m.getLast hne]) :=
    (List.perm_append_singleton _ _).symm
  rw [List.dropLast_append_getLast hne] at hp
  exact hp

theorem removeAndReorder_perm {α : Type} (d : α) :
    ∀ (l : List α) (i : Nat), i < l.length →
    (l.getD i d :: removeAndReorder l i).Perm l := by
  intro l
  induction l with
  | nil =>
      intro i hi
      simp at hi
  | cons x xs ih =>
      intro i hi
      cases hxs : xs with
      | nil =>
          subst hxs
          have hi0 : i = 0 := by
            simp only [List.length_cons, List.length_nil] at hi
            omega
          subst hi0
          have hr : removeAndReorder [x] 0 = [] := rfl
          rw [hr]
          exact List.Perm.refl _
      | cons y ys =>
          subst hxs
          cases i with
          | zero =>
              cases ha : (y :: ys).getLast? with
              | none =>
                  rw [List.getLast?_eq_getLast _ (by simp)] at ha
                  exact absurd ha (by simp)
              | some a =>
                  have hga : (x :: y :: ys).getLast? = some a := by
                    rw [List.getLast?_cons_cons]
                    exact ha
                  have hrr : removeAndReorder (x :: y :: ys) 0 =
                      a :: (y :: ys).dropLast := by
                    unfold removeAndReorder
                    rw [hga]
                    show (a :: y :: ys).dropLast = a :: (y :: ys).dropLast
                    exact dropLast_cons_ne a (by simp)
                  rw [hrr]
                  exact List.Perm.cons x (perm_getLast? ha)
          | succ i =>
              have hi2 : i < (y :: ys).length := by
                simp only [List.length_cons] at hi ⊢
                omega
              cases ha : (y :: ys).getLast? with
              | none =>
                  rw [List.getLast?_eq_getLast _ (by simp)] at ha
                  exact absurd ha (by simp)
              | some a =>
                  have hga : (x :: y :: ys).getLast? = some a := by
                    rw [List.getLast?_cons_cons]
                    exact ha
                  have hrr : removeAndReorder (x :: y :: ys) (i + 1) =
                      x :: removeAndReorder (y :: ys) i := by
                    unfold removeAndReorder
                    rw [hga, ha]
                    show (x :: (y :: ys).set i a).dropLast =
                      x :: ((y :: ys).set i a).dropLast
                    refine dropLast_cons_ne x ?_
                    intro hcon
                    have hlen := congrArg List.length hcon
                    simp at hlen
                  rw [hrr]
                  exact (List.Perm.swap x _ _).trans (List.Perm.cons x (ih i hi2))

theorem removeAndReorder_get?_lt {α : Type} {l : List α} {i p : Nat}
    (hp : p < i) (hi : i < l.length) :
    (removeAndReorder l i).get? p = l.get? p := by
  have hne : l ≠ [] := by
    intro he
    subst he
    simp at hi
  unfold removeAndReorder
  rw [List.getLast?_eq_getLast l hne]
  show ((l.set i (l.getLast hne)).dropLast).get? p = l.get? p
  rw [List.dropLast_eq_take]
  rw [List.get?_take (by rw [List.length_set]; omega)]
  exact List.get?_set_ne _ _ (by omega)

theorem removeAndReorder_length {α : Type} {l : List α} (hne : l ≠ []) (i : Nat) :
    (removeAndReorder l i).length = l.length - 1 := by
  unfold removeAndReorder
  rw [List.getLast?_eq_getLast l hne]
  show ((l.set i (l.getLast hne)).dropLast).length = l.length - 1
  rw [List.length_dropLast, List.length_set]

theorem get?_eq_some_getD {α : Type} {l : List α} {c : Nat} (h : c < l.length)
    (d : α) : l.get? c = some (l.getD c d) := by
  rw [List.getD_eq_getElem?_getD, List.get?_eq_getElem?,
    List.getElem?_eq_getElem h]
  rfl

theorem take_eq_of_get?_eq {α : Type} {l1 l2 : List α} {c : Nat}
    (h : ∀ p, p < c → l1.get? p = l2.get? p) : l1.take c = l2.take c := by
  apply List.ext_get?
  intro n
  by_cases hn : n < c
  · rw [List.get?_take hn, List.get?_take hn, h n hn]
  · have h1 : (l1.take c).get? n = none := by
      rw [List.get?_eq_none]
      rw [List.length_take]
      omega
    have h2 : (l2.take c).get? n = none := by
      rw [List.get?_eq_none]
      rw [List.length_take]
      omega
    rw [h1, h2]


theorem getD_set_ne {α : Type} (l : List α) (i q : Nat) (a d : α) (h : i ≠ q) :
    (l.set i a).getD q d = l.getD q d := by
  rw [List.getD_eq_getElem?_getD, List.getD_eq_getElem?_getD,
    ← List.get?_eq_getElem?, ← List.get?_eq_getElem?, List.get?_set_ne a l h]

theorem getD_set_eq {α : Type} (l : List α) (i : Nat) (a d : α)
    (h : i < l.length) : (l.set i a).getD i d = a := by
  rw [List.getD_eq_getElem?_getD, ← List.get?_eq_getElem?,
    List.get?_set_eq_of_lt a h]
  rfl

/-- The complete behaviour of the splitting loop of `evaluate_fields`:
the surviving fields are (as a multiset) the non-input fields among the
examined prefix plus the unexamined suffix; the surviving buffer positions
are a sub-multiset of the original ones, with the positions of examined
input fields removed; buffers at unexamined positions are untouched; and the
buffer of every examined input field holds the materialized input data at
exactly the masked elements. -/
theorem splitLoop_spec (ctx : FieldContext) (mask : Mask) :
    ∀ (c : Nat) (nif : List GField) (nio : List Nat) (bufs : List Buffer)
      (log : List Nat),
    c ≤ nif.length → c ≤ bufs.length → nio.Nodup →
    (∀ p, p < c → nio.get? p = some p) →
    ((↑(splitLoop ctx mask c nif nio bufs log).1 : Multiset GField) =
        ↑((nif.take c).filter fun f => !f.isInput) + ↑(nif.drop c)) ∧
    ((↑(splitLoop ctx mask c nif nio bufs log).2.1 : Multiset Nat) ≤ ↑nio) ∧
    (∀ p, p < c → ∀ i fo, nif.get? p = some ⟨SourceId.input i, fo⟩ →
      p ∉ (splitLoop ctx mask c nif nio bufs log).2.1) ∧
    (∀ q, c ≤ q →
      ((splitLoop ctx mask c nif nio bufs log).2.2.1).getD q (fun _ => 0) =
        bufs.getD q (fun _ => 0)) ∧
    (∀ p, p < c → ∀ i fo, nif.get? p = some ⟨SourceId.input i, fo⟩ → ∀ e,
      (((splitLoop ctx mask c nif nio bufs log).2.2.1).getD p (fun _ => 0)) e =
        if e ∈ mask then ctx.inputData i e
        else (bufs.getD p (fun _ => 0)) e) := by
  intro c
  induction c with
  | zero =>
      intro nif nio bufs log _ _ _ _
      refine ⟨by simp [splitLoop], le_refl _, ?_, ?_, ?_⟩
      · intro p hp
        exact absurd hp (Nat.not_lt_zero p)
      · intro q _
        rfl
      · intro p hp
        exact absurd hp (Nat.not_lt_zero p)
  | succ c ih =>
      intro nif nio bufs log h1 h2 h3 h4
      have hclen : c < nif.length := h1
      have hcbuf : c < bufs.length := h2
      have hgetc : nif.get? c = some (nif.getD c ⟨SourceId.operation 0, 0⟩) :=
        get?_eq_some_getD hclen _
      have htake : nif.take (c + 1) =
          nif.take c ++ [nif.getD c ⟨SourceId.operation 0, 0⟩] := by
        rw [List.take_succ]
        have hx : nif[c]? = some (nif.getD c ⟨SourceId.operation 0, 0⟩) := by
          rw [← List.get?_eq_getElem?]
          exact hgetc
        rw [hx]
        rfl
      have hdrop : nif.drop c =
          nif.getD c ⟨SourceId.operation 0, 0⟩ :: nif.drop (c + 1) := by
        rw [List.drop_eq_getElem_cons hclen]
        have hx : nif[c] = nif.getD c ⟨SourceId.operation 0, 0⟩ := by
          rw [List.getD_eq_getElem?_getD, List.getElem?_eq_getElem hclen]
          rfl
        rw [hx]
      cases hsrc : (nif.getD c ⟨SourceId.operation 0, 0⟩).source with
      | operation j =>
          have hfin : (nif.getD c ⟨SourceId.operation 0, 0⟩).isInput = false := by
            unfold GField.isInput
            rw [hsrc]
          have hstep : splitLoop ctx mask (c + 1) nif nio bufs log =
              splitLoop ctx mask c nif nio bufs log := by
            rw [splitLoop, hsrc]
          rcases ih nif nio bufs log (Nat.le_of_succ_le h1)
            (Nat.le_of_succ_le h2) h3
            (fun p hp => h4 p (Nat.lt_succ_of_lt hp)) with ⟨ih1, ih2, ih3, ih4, ih5⟩
          refine ⟨?_, ?_, ?_, ?_, ?_⟩
          · rw [hstep, ih1, htake, List.filter_append]
            have hfP : List.filter (fun f => !f.isInput)
                [nif.getD c ⟨SourceId.operation 0, 0⟩] =
                [nif.getD c ⟨SourceId.operation 0, 0⟩] := by
              rw [List.filter_cons, hfin]
              rfl
            rw [hfP, hdrop]
            show (↑(List.filter (fun f => !f.isInput) (nif.take c) ++
                (nif.getD c ⟨SourceId.operation 0, 0⟩ :: nif.drop (c + 1))) :
                Multiset GField) =
              ↑((List.filter (fun f => !f.isInput) (nif.take c) ++
                [nif.getD c ⟨SourceId.operation 0, 0⟩]) ++ nif.drop (c + 1))
            rw [List.append_assoc]
            rfl
          · rw [hstep]
            exact ih2
          · intro p hp i fo hpin
            rcases Nat.lt_succ_iff_lt_or_eq.mp hp with hp1 | hp1
            · rw [hstep]
              exact ih3 p hp1 i fo hpin
            · subst hp1
              rw [hgetc] at hpin
              injection hpin with hfeq
              have := congrArg GField.source hfeq
              rw [hsrc] at this
              exact absurd this (by simp)
          · intro q hq
            rw [hstep]
            exact ih4 q (Nat.le_of_succ_le hq)
          · intro p hp i fo hpin e
            rcases Nat.lt_succ_iff_lt_or_eq.mp hp with hp1 | hp1
            · rw [hstep]
              exact ih5 p hp1 i fo hpin e
            · subst hp1
              rw [hgetc] at hpin
              injection hpin with hfeq
              have := congrArg GField.source hfeq
              rw [hsrc] at this
              exact absurd this (by simp)
      | input k =>
          have hfin : (nif.getD c ⟨SourceId.operation 0, 0⟩).isInput = true := by
            unfold GField.isInput
            rw [hsrc]
          have hnioLen : c < nio.length := by
            have := h4 c (Nat.lt_succ_self c)
            rcases List.get?_eq_some.mp this with ⟨hlt, _⟩
            exact hlt
          have hnifNe : nif ≠ [] := by
            intro he
            rw [he] at hclen
            simp at hclen
          have hnioNe : nio ≠ [] := by
            intro he
            rw [he] at hnioLen
            simp at hnioLen
          have hgetN : nio.getD c 0 = c := by
            have := h4 c (Nat.lt_succ_self c)
            rw [get?_eq_some_getD hnioLen 0] at this
            injection this with h5
          have hstep : splitLoop ctx mask (c + 1) nif nio bufs log =
              splitLoop ctx mask c (removeAndReorder nif c)
                (removeAndReorder nio c)
                (bufs.set c fun e => if e ∈ mask then ctx.inputData k e
                  else (bufs.getD c fun _ => 0) e)
                (log ++ [k]) := by
            rw [splitLoop, hsrc]
          have hpermF := removeAndReorder_perm (⟨SourceId.operation 0, 0⟩ : GField)
            nif c hclen
          have hpermN := removeAndReorder_perm 0 nio c hnioLen
          rw [hgetN] at hpermN
          have hnodupCons : (c :: removeAndReorder nio c).Nodup :=
            (hpermN.nodup_iff).mpr h3
          have hnio2nodup : (removeAndReorder nio c).Nodup :=
            (List.nodup_cons.mp hnodupCons).2
          have hcnotmem : c ∉ removeAndReorder nio c :=
            (List.nodup_cons.mp hnodupCons).1
          have hpreN : ∀ p, p < c → (removeAndReorder nio c).get? p = some p :=
            fun p hp => (removeAndReorder_get?_lt hp hnioLen).trans
              (h4 p (Nat.lt_succ_of_lt hp))
          have hpreF : ∀ p, p < c →
              (removeAndReorder nif c).get? p = nif.get? p :=
            fun p hp => removeAndReorder_get?_lt hp hclen
          have htakeF : (removeAndReorder nif c).take c = nif.take c :=
            take_eq_of_get?_eq hpreF
          have hlenF : c ≤ (removeAndReorder nif c).length := by
            rw [removeAndReorder_length hnifNe]
            omega
          have hlenB : c ≤ (bufs.set c fun e => if e ∈ mask then
              ctx.inputData k e else (bufs.getD c fun _ => 0) e).length := by
            rw [List.length_set]
            omega
          rcases ih (removeAndReorder nif c) (removeAndReorder nio c)
            (bufs.set c fun e => if e ∈ mask then ctx.inputData k e
              else (bufs.getD c fun _ => 0) e) (log ++ [k])
            hlenF hlenB hnio2nodup hpreN with ⟨ih1, ih2, ih3, ih4, ih5⟩
          have hD : (↑((removeAndReorder nif c).drop c) : Multiset GField) =
              ↑(nif.drop (c + 1)) := by
            have hA : ({nif.getD c ⟨SourceId.operation 0, 0⟩} : Multiset GField) +
                (↑(nif.take c) + ↑((removeAndReorder nif c).drop c)) = ↑nif := by
              calc ({nif.getD c ⟨SourceId.operation 0, 0⟩} : Multiset GField) +
                  (↑(nif.take c) + ↑((removeAndReorder nif c).drop c))
                  = {nif.getD c ⟨SourceId.operation 0, 0⟩} +
                    (↑((removeAndReorder nif c).take c) +
                      ↑((removeAndReorder nif c).drop c)) := by rw [htakeF]
                _ = {nif.getD c ⟨SourceId.operation 0, 0⟩} +
                    ↑((removeAndReorder nif c).take c ++
                      (removeAndReorder nif c).drop c) := rfl
                _ = {nif.getD c ⟨SourceId.operation 0, 0⟩} +
                    ↑(removeAndReorder nif c) := by
                    rw [List.take_append_drop]
                _ = ↑(nif.getD c ⟨SourceId.operation 0, 0⟩ ::
                    removeAndReorder nif c) := rfl
                _ = ↑nif := Multiset.coe_eq_coe.mpr hpermF
            have hB : ({nif.getD c ⟨SourceId.operation 0, 0⟩} : Multiset GField) +
                (↑(nif.take c) + ↑(nif.drop (c + 1))) = ↑nif := by
              calc ({nif.getD c ⟨SourceId.operation 0, 0⟩} : Multiset GField) +
                  (↑(nif.take c) + ↑(nif.drop (c + 1)))
                  = ↑(nif.take c) + ({nif.getD c ⟨SourceId.operation 0, 0⟩} +
                    ↑(nif.drop (c + 1))) := by rw [add_left_comm]
                _ = ↑(nif.take c) + ↑(nif.getD c ⟨SourceId.operation 0, 0⟩ ::
                    nif.drop (c + 1)) := rfl
                _ = ↑(nif.take c) + ↑(nif.drop c) := by rw [← hdrop]
                _ = ↑(nif.take c ++ nif.drop c) := rfl
                _ = ↑nif := by rw [List.take_append_drop]
            have hC := hA.trans hB.symm
            have hC2 := add_left_cancel hC
            exact add_left_cancel hC2
          refine ⟨?_, ?_, ?_, ?_, ?_⟩
          · rw [hstep, ih1, htakeF, hD, htake, List.filter_append]
            have hfP : List.filter (fun f => !f.isInput)
                [nif.getD c ⟨SourceId.operation 0, 0⟩] = [] := by
              rw [List.filter_cons, hfin]
              rfl
            rw [hfP, List.append_nil]
          · rw [hstep]
            refine ih2.trans ?_
            have : (↑nio : Multiset Nat) = c ::ₘ ↑(removeAndReorder nio c) :=
              (Multiset.coe_eq_coe.mpr hpermN).symm
            rw [this]
            exact Multiset.le_cons_self _ _
          · intro p hp i fo hpin
            rcases Nat.lt_succ_iff_lt_or_eq.mp hp with hp1 | hp1
            · rw [hstep]
              refine ih3 p hp1 i fo ?_
              rw [hpreF p hp1]
              exact hpin
            · subst hp1
              rw [hstep]
              intro hmem
              have hle := Multiset.count_le_of_le p ih2
              rw [Multiset.coe_count, Multiset.coe_count] at hle
              have h0 : (removeAndReorder nio p).count p = 0 :=
                List.count_eq_zero.mpr hcnotmem
              rw [h0] at hle
              have : (splitLoop ctx mask p (removeAndReorder nif p)
                  (removeAndReorder nio p)
                  (bufs.set p fun e => if e ∈ mask then ctx.inputData k e
                    else (bufs.getD p fun _ => 0) e)
                  (log ++ [k])).2.1.count p = 0 := by omega
              rw [List.count_eq_zero] at this
              exact this hmem
          · intro q hq
            rw [hstep, ih4 q (Nat.le_of_succ_le hq)]
            exact getD_set_ne bufs c q _ _ (by omega)
          · intro p hp i fo hpin e
            rcases Nat.lt_succ_iff_lt_or_eq.mp hp with hp1 | hp1
            · rw [hstep]
              rw [ih5 p hp1 i fo (by rw [hpreF p hp1]; exact hpin) e]
              rw [getD_set_ne bufs c p _ _ (by omega)]
            · subst hp1
              rw [hgetc] at hpin
              injection hpin with hfeq
              have hik : i = k := by
                have := congrArg GField.source hfeq
                rw [hsrc] at this
                injection this with h6
                exact h6.symm
              subst hik
              rw [hstep, ih4 p (le_refl p)]
              rw [getD_set_eq bufs p _ _ hcbuf]

theorem foldl_set_getD_not_mem (p : Nat) (d : Buffer) :
    ∀ (l : List (Nat × Buffer)) (bufs : List Buffer),
    (∀ x ∈ l, x.1 ≠ p) →
    (l.foldl (fun b pw => b.set pw.1 pw.2) bufs).getD p d = bufs.getD p d := by
  intro l
  induction l with
  | nil =>
      intro bufs _
      rfl
  | cons a t iht =>
      intro bufs h
      rw [List.foldl_cons,
        iht (bufs.set a.1 a.2) (fun x hx => h x (List.mem_cons_of_mem a hx))]
      exact getD_set_ne bufs a.1 p a.2 d (h a (List.mem_cons_self a t))

theorem scatter_getD_not_mem (bufs : List Buffer) (nio : List Nat)
    (written : List Buffer) (p : Nat) (hp : p ∉ nio) (d : Buffer) :
    (scatter bufs nio written).getD p d = bufs.getD p d := by
  unfold scatter
  refine foldl_set_getD_not_mem p d (nio.zip written) bufs ?_
  intro x hx heq
  rcases x with ⟨a, b⟩
  apply hp
  rw [← heq]
  exact (List.of_mem_zip hx).1

/-- C8: in `evaluate_fields`, every requested field that is itself a bare
input is materialized directly into its paired output buffer (masked elements
get the input data, the rest keep the caller's contents, and the scatter of
the executor's results never overwrites that buffer); the fields that enter
procedure construction are exactly the operation-rooted requests (as a
multiset); and when every requested field is a bare input no procedure is
built at all. -/
theorem evaluateFields_bare_inputs (ctx : FieldContext) (fields : List GField)
    (mask : Mask) (outputs : List Buffer) (fuel : Nat)
    (hlen : fields.length = outputs.length) :
    (∀ bufs log built,
      evaluateFields ctx fuel fields mask outputs = .ok bufs log built →
      (∀ p i fo, fields.get? p = some ⟨SourceId.input i, fo⟩ → ∀ e,
        (bufs.getD p fun _ => 0) e =
          if e ∈ mask then ctx.inputData i e
          else (outputs.getD p fun _ => 0) e) ∧
      (∀ l, built = some l →
        (↑l : Multiset GField) = ↑(fields.filter fun f => !f.isInput))) ∧
    ((∀ f ∈ fields, f.isInput = true) →
      (evaluateFields ctx fuel fields mask outputs).builtOf = some none) := by
  have hrange : ∀ p, p < fields.length →
      (List.range fields.length).get? p = some p := by
    intro p hp
    rw [List.get?_eq_getElem?, List.getElem?_range hp]
  rcases hsplit : splitLoop ctx mask fields.length fields
    (List.range fields.length) outputs [] with ⟨nif, nio, bufs0, log0⟩
  have hspec := splitLoop_spec ctx mask fields.length fields
    (List.range fields.length) outputs [] (le_refl _) (le_of_eq hlen)
    (List.nodup_range _) hrange
  rw [hsplit] at hspec
  obtain ⟨hs1, _, hs3, _, hs5⟩ := hspec
  rw [List.take_length, List.drop_length, Multiset.coe_nil, add_zero] at hs1
  have hev : evaluateFields ctx fuel fields mask outputs =
      (if nif.isEmpty then EvalResult.ok bufs0 log0 none
       else
        match evaluateNonInputFields ctx fuel nif mask
            (nio.map fun p => bufs0.getD p fun _ => 0) with
        | none => EvalResult.outOfFuel
        | some (written, glog) =>
            EvalResult.ok (scatter bufs0 nio written) (log0 ++ glog)
              (some nif)) := by
    rw [evaluateFields, if_pos hlen, hsplit]
  constructor
  · intro bufs log built hok
    rw [hev] at hok
    by_cases hni : nif.isEmpty
    · rw [if_pos hni] at hok
      injection hok with hb _ hbuilt
      refine ⟨?_, ?_⟩
      · intro p i fo hpin e
        have hplen : p < fields.length := by
          rcases List.get?_eq_some.mp hpin with ⟨h, _⟩
          exact h
        rw [← hb]
        exact hs5 p hplen i fo hpin e
      · intro l hl2
        rw [← hbuilt] at hl2
        exact Option.noConfusion hl2
    · rw [if_neg hni] at hok
      rcases henif : evaluateNonInputFields ctx fuel nif mask
          (nio.map fun p => bufs0.getD p fun _ => 0) with _ | ⟨written, glog⟩
      · rw [henif] at hok
        exact EvalResult.noConfusion hok
      · rw [henif] at hok
        injection hok with hb _ hbuilt
        refine ⟨?_, ?_⟩
        · intro p i fo hpin e
          have hplen : p < fields.length := by
            rcases List.get?_eq_some.mp hpin with ⟨h, _⟩
            exact h
          have hnotmem : p ∉ nio := hs3 p hplen i fo hpin
          rw [← hb, scatter_getD_not_mem bufs0 nio written p hnotmem]
          exact hs5 p hplen i fo hpin e
        · intro l hl2
          rw [← hbuilt] at hl2
          injection hl2 with hl3
          rw [← hl3]
          exact hs1
  · intro hall
    have hperm : nif.Perm (fields.filter fun f => !f.isInput) :=
      Multiset.coe_eq_coe.mp hs1
    have hnil : nif = [] := by
      rw [List.eq_nil_iff_forall_not_mem]
      intro f hf
      have hmem := hperm.mem_iff.mp hf
      have hfi := List.of_mem_filter hmem
      rw [hall f (List.mem_of_mem_filter hmem)] at hfi
      exact absurd hfi (by decide)
    rw [hev, if_pos (by rw [hnil]; rfl)]
    rfl

/-- Witness for C8 on the mixed request `[A, double(A)]`: position 0 is a
bare input, position 1 an operation; the theorem is instantiated at mask
`{0}` and zero caller buffers. -/
theorem evaluateFields_bare_inputs_witness :
    fieldsDup.length = ([zeroBuf, zeroBuf] : List Buffer).length ∧
    ((∀ bufs log built,
      evaluateFields ctxDup 32 fieldsDup [0] [zeroBuf, zeroBuf] =
        .ok bufs log built →
      (∀ p i fo, fieldsDup.get? p = some ⟨SourceId.input i, fo⟩ → ∀ e,
        (bufs.getD p fun _ => 0) e =
          if e ∈ ([0] : Mask) then ctxDup.inputData i e
          else (([zeroBuf, zeroBuf] : List Buffer).getD p fun _ => 0) e) ∧
      (∀ l, built = some l →
        (↑l : Multiset GField) = ↑(fieldsDup.filter fun f => !f.isInput))) ∧
    ((∀ f ∈ fieldsDup, f.isInput = true) →
      (evaluateFields ctxDup 32 fieldsDup [0] [zeroBuf, zeroBuf]).builtOf =
        some none)) :=
  ⟨rfl, evaluateFields_bare_inputs ctxDup fieldsDup [0] [zeroBuf, zeroBuf]
    32 rfl⟩

/-- Witness for C3 on the `double(A)`/`square(A)` pair: the hypotheses hold
and the destruct-coverage conclusion is obtained for the concretely built
procedure. -/
theorem buildProcedure_destruct_coverage_witness :
    ctxPair.WF ∧ (∀ f ∈ fieldsPair, f.valid ctxPair) ∧
    (∀ f ∈ fieldsPair, f.isInput = false) ∧
    buildProcedure ctxPair 32 fieldsPair = some (builtPair.1, builtPair.2) ∧
    ((∀ v ∈ builtPair.2.flatMap Prod.snd,
      (v ∈ builtPair.1.outputParams ∧
        builtPair.1.body.count (Instruction.destruct v) = 0) ∨
      (v ∉ builtPair.1.outputParams ∧
        builtPair.1.body.count (Instruction.destruct v) = 1)) ∧
    (∀ k v, builtPair.1.body.get? k = some (Instruction.destruct v) →
      ∀ r, builtPair.1.body.get? r = some Instruction.ret → k < r)) :=
  ⟨by decide, by decide, by decide, rfl,
    buildProcedure_destruct_coverage ctxPair (by decide) fieldsPair (by decide)
      (by decide) 32 builtPair.1 builtPair.2 rfl⟩

end FieldEval
